import Mathlib

/-!
Verification development for the rate-resolution engine of the exchange
repository (package rates, file rates.go).  The definitions below are a
shallow embedding of the Go source: strings are lists of characters,
Go float64 arithmetic is modelled by exact rationals, the HTTP layer is
modelled by an explicit upstream-outcome value passed to the fetcher, and
the LRU cache of hashicorp/golang-lru is modelled by a recency-ordered
association list.  Known modelling conventions, each noted at the
definition it concerns:
* Go float64 is modelled by the rationals; Go division by zero yields an
  infinity while rational division by zero yields 0 — no claim below
  depends on the numeric value produced by a zero divisor, only on
  whether an error is raised.
* strings.ToLower is modelled by mapping Char.toLower (ASCII case
  folding); claims restrict themselves to characters on which the two
  agree.
* regexp.Compile / FindStringSubmatch are modelled only on the exact two
  pattern shapes the source builds in SetRequiredCodes, with aliases made
  of literal characters or the end-of-text anchor that a raw dollar sign
  compiles to.  Other regex metacharacters occurring in an alias are
  outside the modelled fragment and are treated as a compile failure.
-/

namespace Exchange

/-- Strings of the model: Go strings at rune granularity. -/
abbrev Str := List Char

/-- The RE2 Perl class backslash-s: space, tab, newline, form feed, carriage return. -/
def wsChar (c : Char) : Bool :=
  c = ' ' || c = '\t' || c = '\n' || c = '\x0c' || c = '\r'

/-- Regex metacharacters (other than the dollar sign, handled separately):
characters that regexp.Compile does not read as a literal.  An alias
containing one of these is outside the modelled regex fragment. -/
def metaChars : Str :=
  ['.', '*', '+', '?', '(', ')', '[', ']', '|', '^',
   Char.ofNat 123, Char.ofNat 125, Char.ofNat 92]

/-- One token of a compiled alias: a literal character, or the end-of-text
anchor that regexp.Compile produces for a raw dollar sign embedded in the
pattern. -/
inductive ATok where
  | lit (c : Char)
  | endA
deriving DecidableEq

/-- Compile one alias character, as regexp.Compile reads the alias text
spliced into the pattern: a dollar sign becomes the end-of-text anchor,
a metacharacter is outside the modelled fragment (compile failure — for
the unbalanced "(" used below Go regexp.Compile fails too), anything else
is a literal. -/
def compileTok (c : Char) : Option ATok :=
  if c = '$' then some ATok.endA
  else if metaChars.contains c then none
  else some (ATok.lit c)

/-- Compile a whole alias into its token list. -/
def compileAlias (a : Str) : Option (List ATok) :=
  a.mapM compileTok

/-- A compiled recognition pattern.  amountFirst toks is
(backslash-d+(backslash-point backslash-d+)?) backslash-s* (toks), whose
submatch index 1 is the amount; aliasFirst toks is the mirrored
(toks) backslash-s* (amount), whose submatch index 2 is the amount.  The
source selects the amount submatch by the parity of the pattern index,
which by construction in SetRequiredCodes coincides with this shape. -/
inductive Pat where
  | amountFirst (toks : List ATok)
  | aliasFirst (toks : List ATok)
deriving DecidableEq

/-- All splits of a list into prefix and suffix, longest prefix first:
the backtracking order of a greedy repetition over the list. -/
def splitsDesc : Str → List (Str × Str)
  | [] => [([], [])]
  | c :: t => (splitsDesc t).map (fun p => (c :: p.1, p.2)) ++ [([], c :: t)]

/-- Candidates for ( backslash-point backslash-d+ )? at the start of s, in
backtracking preference order: longest fraction first; the empty
(absent) alternative is represented by the caller appending the
no-fraction candidate after these. -/
def fracCands : Str → List (Str × Str)
  | [] => []
  | c :: t =>
    if c = '.' then
      let f := t.takeWhile Char.isDigit
      let r := t.dropWhile Char.isDigit
      (splitsDesc f).filterMap
        (fun p => if p.1 = [] then none else some ('.' :: p.1, p.2 ++ r))
    else []

/-- Candidates (capture, rest) for backslash-d+ ( backslash-point
backslash-d+ )? at the start of s, in backtracking preference order:
longest digit run first, and for each digit run the fraction present
(longest first) before absent. -/
def numCands (s : Str) : List (Str × Str) :=
  let d := s.takeWhile Char.isDigit
  let r := s.dropWhile Char.isDigit
  (splitsDesc d).flatMap
    (fun p =>
      if p.1 = [] then []
      else
        let rest := p.2 ++ r
        (fracCands rest).map (fun fc => (p.1 ++ fc.1, fc.2)) ++ [(p.1, rest)])

/-- Rests after backslash-s* at the start of s, greedy (most consumed)
first. -/
def spaceCands (s : Str) : List Str :=
  let w := s.takeWhile wsChar
  let r := s.dropWhile wsChar
  (splitsDesc w).map (fun p => p.2 ++ r)

/-- Match the alias tokens at the start of s, returning the rest.  A
literal consumes its character; the end anchor matches only at the end of
the text and consumes nothing. -/
def matchToks : List ATok → Str → Option Str
  | [], s => some s
  | ATok.lit c :: ts, x :: xs => if x = c then matchToks ts xs else none
  | ATok.lit _ :: _, [] => none
  | ATok.endA :: ts, s => if s.isEmpty then matchToks ts s else none

/-- First some produced by f over the list, in order: the backtracking
search over an ordered candidate list. -/
def firstSome {α β : Type} (f : α → Option β) : List α → Option β
  | [] => none
  | x :: xs =>
    match f x with
    | some y => some y
    | none => firstSome f xs

/-- Try an amount-first pattern anchored at the start of s, returning the
amount capture (submatch 1). -/
def tryAmountFirstAt (toks : List ATok) (s : Str) : Option Str :=
  firstSome
    (fun nc =>
      firstSome
        (fun r2 => (matchToks toks r2).map (fun _ => nc.1))
        (spaceCands nc.2))
    (numCands s)

/-- Try an alias-first pattern anchored at the start of s, returning the
amount capture (submatch 2).  Nothing follows the greedy number in the
pattern, so its most-preferred candidate decides. -/
def tryAliasFirstAt (toks : List ATok) (s : Str) : Option Str :=
  (matchToks toks s).bind
    (fun r1 =>
      firstSome
        (fun r2 =>
          match numCands r2 with
          | [] => none
          | nc :: _ => some nc.1)
        (spaceCands r1))

/-- Try a pattern anchored at the start of s. -/
def tryPatAt (p : Pat) (s : Str) : Option Str :=
  match p with
  | Pat.amountFirst toks => tryAmountFirstAt toks s
  | Pat.aliasFirst toks => tryAliasFirstAt toks s

/-- FindStringSubmatch for the modelled pattern shapes: leftmost match
position wins, and at that position the backtracking-preferred
alternative wins; the returned value is the amount submatch the source
reads out of the match (index 1 or 2 by pattern shape). -/
def findPat (p : Pat) : Str → Option Str
  | [] => tryPatAt p []
  | c :: t =>
    match tryPatAt p (c :: t) with
    | some r => some r
    | none => findPat p t

/-- Numeric value of a digit list read in base 10. -/
def digitsToNat (l : Str) : ℕ :=
  l.foldl (fun a c => a * 10 + (c.toNat - 48)) 0

/-- strconv.ParseFloat modelled exactly on the numeral language
digits ( point digits )? that the amount submatch of the modelled
patterns can produce, with exact rational values in place of float64
rounding.  Text outside that language is a parse failure. -/
def parseNumQ (s : Str) : Option ℚ :=
  let ip := s.takeWhile Char.isDigit
  let r := s.dropWhile Char.isDigit
  if ip = [] then none
  else
    match r with
    | [] => some (digitsToNat ip : ℚ)
    | c :: t =>
      if c = '.' ∧ t ≠ [] ∧ t.all Char.isDigit then
        some ((digitsToNat ip : ℚ) + (digitsToNat t : ℚ) / (10 ^ t.length))
      else none

/-- strings.ToLower, modelled by ASCII case folding per character. -/
def lowerStr (s : Str) : Str := s.map Char.toLower

/-- strings.Trim(m, " "): strip leading and trailing space characters
(spaces only, not general whitespace). -/
def trimSpaces (s : Str) : Str :=
  ((s.dropWhile (fun c => c = ' ')).reverse.dropWhile (fun c => c = ' ')).reverse

/-- strings.Split(s, ","). -/
def splitComma : Str → List Str
  | [] => [[]]
  | c :: t =>
    if c = ',' then [] :: splitComma t
    else
      match splitComma t with
      | [] => [[c]]
      | seg :: rest => (c :: seg) :: rest

/-- The parsedMsg struct of the source: the echoed (trimmed) text, the
matched currency (empty when no pattern matched), and the parsed value
(zero when no pattern matched). -/
structure ParsedMsg where
  msg : Str
  currency : Str
  value : ℚ
deriving DecidableEq

/-- The inner loop of parseMsg over one currency's pattern list: the
first pattern that matches and whose amount text parses fixes the value
and breaks; a match whose amount fails to parse is logged and skipped
(the loop continues with the next pattern). -/
def tryPatsList : List Pat → Str → Option ℚ
  | [], _ => none
  | p :: ps, message =>
    match findPat p message with
    | some cap =>
      match parseNumQ cap with
      | some v => some v
      | none => tryPatsList ps message
    | none => tryPatsList ps message

/-- The outer loop of parseMsg over the currency registry: each
currency's patterns are tried in turn; a successful match overwrites the
currency and value, and the loop breaks early only when the value found
is strictly positive. -/
def parseSegGo : List (Str × List Pat) → ParsedMsg → ParsedMsg
  | [], r => r
  | (cur, ps) :: rest, r =>
    let r2 :=
      match tryPatsList ps r.msg with
      | some v => { r with currency := cur, value := v }
      | none => r
    if r2.value > 0 then r2 else parseSegGo rest r2

/-- parseMsg on one segment: trim spaces, then run the registry loops on
the trimmed text, starting from the empty currency and zero value. -/
def parseSegment (codes : List (Str × List Pat)) (m : Str) : ParsedMsg :=
  let message := trimSpaces m
  parseSegGo codes { msg := message, currency := [], value := 0 }

/-- parseMsg of the source: one parsedMsg per input segment, in order. -/
def parseMsgF (codes : List (Str × List Pat)) (messages : List Str) : List ParsedMsg :=
  messages.map (parseSegment codes)

/-- The per-currency pattern list SetRequiredCodes builds: the code's own
amount-first and alias-first patterns, then the same pair for each alias,
each compiled from the lower-cased text; the first compile failure aborts
(regexp.Compile returning an error makes SetRequiredCodes return it). -/
def patternsFor (code : Str) (names : List Str) : Option (List Pat) := do
  let ct ← compileAlias (lowerStr code)
  let rest ← names.mapM (fun n => do
    let t ← compileAlias (lowerStr n)
    pure [Pat.amountFirst t, Pat.aliasFirst t])
  pure ([Pat.amountFirst ct, Pat.aliasFirst ct] ++ rest.flatten)

/-- The full registry SetRequiredCodes builds before installing it: one
entry per requested currency, keyed by the lower-cased code; the first
compile failure aborts the whole build. -/
def buildCodes : List (Str × List Str) → Option (List (Str × List Pat))
  | [] => some []
  | (code, names) :: rest =>
    match patternsFor code names with
    | none => none
    | some ps =>
      match buildCodes rest with
      | none => none
      | some built => some ((lowerStr code, ps) :: built)

/-- One Valute item of the daily-rates XML response (ResponseRates.Items);
nominal is the unit multiple the value is quoted for, value the decimal
text with the feed's decimal comma. -/
structure CurrencyItem where
  cid : Str
  numCode : Str
  charCode : Str
  nominal : ℕ
  name : Str
  value : Str
deriving DecidableEq

/-- The hashicorp/golang-lru cache, modelled as a recency-ordered
association list (most recently used first) with its fixed capacity. -/
structure LruCache where
  size : ℕ
  entries : List (Str × List CurrencyItem)
deriving DecidableEq

/-- lru Get: a hit returns the value and moves the key to the front
(refreshing recency); a miss leaves the cache unchanged. -/
def LruCache.get (c : LruCache) (k : Str) : Option (List CurrencyItem) × LruCache :=
  match c.entries.find? (fun e => e.1 = k) with
  | some e => (some e.2, { c with entries := (k, e.2) :: c.entries.filter (fun e2 => ¬ e2.1 = k) })
  | none => (none, c)

/-- lru Add: insert (or refresh) the key at the front and drop beyond
capacity, evicting the least recently used entries. -/
def LruCache.add (c : LruCache) (k : Str) (v : List CurrencyItem) : LruCache :=
  { c with entries := ((k, v) :: c.entries.filter (fun e => ¬ e.1 = k)).take c.size }

/-- The part of the Cfg struct the engine logic reads: the installed
pattern registry (nil until SetRequiredCodes has succeeded) and the daily
rate cache.  Host, port, timeout durations, user agent and logger are
transport or diagnostic state with no effect on the modelled results. -/
structure Cfg where
  codes : Option (List (Str × List Pat))
  cache : LruCache
deriving DecidableEq

/-- SetRequiredCodes: build the whole registry first; any compile error
returns before the assignment to the codes field, so the previous
registry stays installed; on success the field is replaced wholesale. -/
def setRequiredCodes (c : Cfg) (codeNames : List (Str × List Str)) :
    Except String Unit × Cfg :=
  match buildCodes codeNames with
  | none => (Except.error "compile", c)
  | some codes => (Except.ok (), { c with codes := some codes })

/-- Decidable equality for Except values, so concrete runs of the model
can be checked by evaluation. -/
instance instDecEqExcept {ε α : Type} [DecidableEq ε] [DecidableEq α] :
    DecidableEq (Except ε α) := fun a b =>
  match a, b with
  | Except.ok x, Except.ok y =>
    if h : x = y then isTrue (by rw [h])
    else isFalse (fun hh => h (by injection hh))
  | Except.ok _, Except.error _ => isFalse (fun hh => Except.noConfusion hh)
  | Except.error _, Except.ok _ => isFalse (fun hh => Except.noConfusion hh)
  | Except.error x, Except.error y =>
    if h : x = y then isTrue (by rw [h])
    else isFalse (fun hh => h (by injection hh))

/-- What the single outbound request of dayRates can come back with: the
context deadline firing first, a transport error, or a response with its
status code and the outcome of XML-decoding its body (the decode is not
modelled further: a malformed body is a decode error). -/
inductive Upstream where
  | timeout
  | netError (e : String)
  | response (status : ℕ) (body : Except String (List CurrencyItem))
deriving DecidableEq

/-- The precise errors dayRates can return, before GetRates collapses
them into one classified failure. -/
inductive DayErr where
  | timedOut
  | net (e : String)
  | notOk (status : ℕ)
  | decode (e : String)
deriving DecidableEq

/-- dayRates: consult the cache by date key and return a hit at once; on
a miss issue the request (modelled by the given upstream outcome), and
only a 200-status response whose body decodes is cached and returned.
The third component records whether the outbound request was made. -/
def dayRates (c : Cfg) (date : Str) (up : Upstream) :
    Except DayErr (List CurrencyItem) × Cfg × Bool :=
  match c.cache.get date with
  | (some v, cache2) => (Except.ok v, { c with cache := cache2 }, false)
  | (none, _) =>
    match up with
    | Upstream.timeout => (Except.error DayErr.timedOut, c, true)
    | Upstream.netError e => (Except.error (DayErr.net e), c, true)
    | Upstream.response status body =>
      if status ≠ 200 then (Except.error (DayErr.notOk status), c, true)
      else
        match body with
        | Except.error e => (Except.error (DayErr.decode e), c, true)
        | Except.ok rr => (Except.ok rr, { c with cache := c.cache.add date rr }, true)

/-- Association-list lookup standing in for a Go map read with comma-ok. -/
def lookupA (l : List (Str × ℚ)) (k : Str) : Option ℚ :=
  match l.find? (fun e => e.1 = k) with
  | some e => some e.2
  | none => none

/-- Go map insert: the last write for a key wins.  The earlier binding is
removed so that lookups see the new value. -/
def insertA (l : List (Str × ℚ)) (k : Str) (v : ℚ) : List (Str × ℚ) :=
  (k, v) :: l.filter (fun e => ¬ e.1 = k)

/-- strings.Replace(value, comma, point, 1): normalize the first decimal
comma to a point. -/
def commaToPoint : Str → Str
  | [] => []
  | c :: t => if c = ',' then '.' :: t else c :: commaToPoint t

/-- currencyMap: the rate table for the day, base currency rub pinned to
1, one entry per item keyed by the lower-cased char code with value the
parsed decimal (comma normalized to a point) divided by the nominal; the
first unparseable value fails the whole conversion.  Go float64 division
by a zero nominal yields an infinity where the rational model yields 0;
no claim reads a value produced that way. -/
def currencyMap (values : List CurrencyItem) : Except String (List (Str × ℚ)) :=
  go values (insertA [] ("rub".toList) 1)
where
  /-- Loop of currencyMap over the response items. -/
  go : List CurrencyItem → List (Str × ℚ) → Except String (List (Str × ℚ))
  | [], acc => Except.ok acc
  | v :: rest, acc =>
    match parseNumQ (commaToPoint v.value) with
    | none => Except.error "parse float"
    | some q => go rest (insertA acc (lowerStr v.charCode) (q / (v.nominal : ℚ)))

/-- math.Modf's integer part: truncation toward zero. -/
def truncQ (q : ℚ) : ℤ :=
  if 0 ≤ q then ⌊q⌋ else ⌈q⌉

/-- The round helper of the source: scale by 10^places, split off the
fractional part with Modf, and round half up — a fractional part of at
least one half goes to the ceiling, otherwise to the floor. -/
def round (val : ℚ) (places : ℕ) : ℚ :=
  let pow : ℚ := 10 ^ places
  let digit := pow * val
  let div := digit - (truncQ digit : ℚ)
  if (1 : ℚ) / 2 ≤ div then (⌈digit⌉ : ℚ) / pow else (⌊digit⌋ : ℚ) / pow

/-- One item of the JSON result: the echoed message and its per-currency
converted amounts. -/
structure RateItem where
  msg : Str
  rate : List (Str × ℚ)
deriving DecidableEq

/-- The JSON result struct of GetRates. -/
structure Info where
  date : Str
  rates : List RateItem
deriving DecidableEq

/-- RateError: the classified error GetRates surfaces, as an HTTP status
class plus a short message. -/
structure RateError where
  httpCode : ℕ
  msg : String
deriving DecidableEq

/-- reqRates: for each parsed message look its currency up in the day's
table with comma-ok — a missing (or empty, for an unmatched segment)
currency fails the whole batch; otherwise convert the base value into
every configured required currency, rounding to two places.  A required
currency missing from the table is read as the Go map zero value 0. -/
def reqRates (codes : List (Str × List Pat)) :
    List ParsedMsg → List (Str × ℚ) → Except String (List RateItem)
  | [], _ => Except.ok []
  | m :: rest, info =>
    match lookupA info m.currency with
    | none => Except.error "unknown currency"
    | some rate =>
      let value := rate * m.value
      let item : RateItem :=
        { msg := m.msg
          rate := codes.map (fun p => (p.1, round (value / ((lookupA info p.1).getD 0)) 2)) }
      match reqRates codes rest info with
      | Except.error e => Except.error e
      | Except.ok items => Except.ok (item :: items)

/-- GetRates: require an installed registry, lower-case the query and
split it on commas, parse the segments, obtain the day's table (cache or
upstream), build the rate map, and convert; each internal failure is
classified — 500 for missing registry or an unparseable table value, 503
for any dayRates failure, 400 for an unknown currency.  The third
component records whether the outbound request was made. -/
def getRates (c : Cfg) (date : Str) (msg : Str) (up : Upstream) :
    Except RateError Info × Cfg × Bool :=
  match c.codes with
  | none => (Except.error { httpCode := 500, msg := "uninitialized required codes" }, c, false)
  | some codes =>
    let messages := splitComma (lowerStr msg)
    if messages.length = 0 then (Except.ok { date := date, rates := [] }, c, false)
    else
      let parsed := parseMsgF codes messages
      match dayRates c date up with
      | (Except.error _, c2, used) =>
        (Except.error { httpCode := 503, msg := "get daily rates" }, c2, used)
      | (Except.ok dayInfo, c2, used) =>
        match currencyMap dayInfo with
        | Except.error _ =>
          (Except.error { httpCode := 500, msg := "internal error" }, c2, used)
        | Except.ok info =>
          match reqRates codes parsed info with
          | Except.error _ =>
            (Except.error { httpCode := 400, msg := "prepare rates error" }, c2, used)
          | Except.ok items => (Except.ok { date := date, rates := items }, c2, used)

/-- A character that regexp.Compile treats as the literal it is, that is
not a digit, whitespace or a decimal point (so it can never overlap the
numeric part of a pattern), and whose case folding is the identity.  The
aliases the parsing claims quantify over are made of these. -/
def plainChar (c : Char) : Bool :=
  !c.isDigit && !wsChar c && !(c = '$') && !(metaChars.contains c) && (c.toLower = c)

/-- A nonempty alias made of plain characters. -/
def PlainTok (a : Str) : Prop :=
  a ≠ [] ∧ ∀ c ∈ a, plainChar c = true

/-- The numeral language digits ( point digits )? recognized by the
amount part of the patterns. -/
def NumeralStr (v : Str) : Prop :=
  (v ≠ [] ∧ ∀ c ∈ v, c.isDigit = true) ∨
  (∃ d f, v = d ++ '.' :: f ∧ d ≠ [] ∧ f ≠ [] ∧
    (∀ c ∈ d, c.isDigit = true) ∧ (∀ c ∈ f, c.isDigit = true))

/-- The token list of a fully literal alias. -/
def litToks (a : Str) : List ATok := a.map ATok.lit

/-- A continuation after the numeric part of an amount-first pattern on
which the pattern necessarily fails: no digits to start a numeral in it,
no fraction candidates, and the alias tokens match after no amount of
consumed whitespace.  Instantiated with the empty continuation and with
the space-then-alias continuation when the alias is not a prefix of the
tail text. -/
def KillTail (B T : Str) : Prop :=
  T.takeWhile Char.isDigit = [] ∧ fracCands T = [] ∧
  ∀ r2 ∈ spaceCands T, matchToks (litToks B) r2 = none

/-- State of the unbuffered error channel ec in dayRates. -/
inductive ChanSt where
  | opened
  | closed
deriving DecidableEq

/-- Joint state of the timeout race of dayRates, viewed from the channel
ec: whether ec is still open, whether the spawned goroutine has executed
its send statement, and whether that send panicked. -/
structure ProtoState where
  chan : ChanSt
  sent : Bool
  panicked : Bool
deriving DecidableEq

/-- The events of the losing timeout branch of dayRates, with the Go
channel semantics they are subject to.  When the select takes ctx.Done,
dayRates returns and its deferred close(ec) runs; the unbuffered send of
the spawned goroutine cannot have completed at that point, because the
select (the only receiver) took the other branch.  When the goroutine
later executes ec with a send, the channel is closed, and the Go language
specification makes a send on a closed channel panic — on an open
unbuffered channel with no receiver left it would instead block forever
(a goroutine leak). -/
inductive ProtoStep : ProtoState → ProtoState → Prop where
  | timeoutReturn (s : ProtoState) (hopen : s.chan = ChanSt.opened) (hsent : s.sent = false) :
      ProtoStep s { s with chan := ChanSt.closed }
  | lateSend (s : ProtoState) (hclosed : s.chan = ChanSt.closed) (hsent : s.sent = false) :
      ProtoStep s { s with sent := true, panicked := true }

/-! Concrete data used by witnesses and counterexamples: the registry of
the repository's own test (usd, eur with their aliases), a required
currency zzz that the upstream never quotes, and a feed item whose value
text is not a number. -/

/-- Registry of the repository test: usd and eur with symbol and word
aliases. -/
def demoCodes : List (Str × List Pat) :=
  (buildCodes [("usd".toList, ["$".toList, "dollar".toList]),
               ("eur".toList, ["€".toList, "euro".toList])]).getD []

/-- Registry configuring only usd, with the dollar-sign alias. -/
def dollarCodes : List (Str × List Pat) :=
  (buildCodes [("usd".toList, ["$".toList])]).getD []

/-- Registry requiring usd, eur and rub with no extra aliases. -/
def threeCodes : List (Str × List Pat) :=
  (buildCodes [("usd".toList, []), ("eur".toList, []), ("rub".toList, [])]).getD []

/-- Registry requiring usd and the never-quoted zzz. -/
def zzzCodes : List (Str × List Pat) :=
  (buildCodes [("usd".toList, []), ("zzz".toList, [])]).getD []

/-- A daily-rates item quoting usd at 63.9100 per unit. -/
def usdItem : CurrencyItem :=
  { cid := [], numCode := [], charCode := "USD".toList, nominal := 1,
    name := [], value := "63,9100".toList }

/-- A daily-rates item quoting eur at 68.5000 per unit. -/
def eurItem : CurrencyItem :=
  { cid := [], numCode := [], charCode := "EUR".toList, nominal := 1,
    name := [], value := "68,5000".toList }

/-- A daily-rates item whose value text is not a number. -/
def badItem : CurrencyItem :=
  { cid := [], numCode := [], charCode := "USD".toList, nominal := 1,
    name := [], value := "abc".toList }

/-- An empty cache of capacity 4 (the capacity must be positive for the
lru constructor to succeed). -/
def emptyCache : LruCache := { size := 4, entries := [] }

/-- Engine configured with the three-currency registry and an empty
cache. -/
def cfgThree : Cfg := { codes := some threeCodes, cache := emptyCache }

/-- Engine configured with the usd-and-zzz registry and an empty cache. -/
def cfgZzz : Cfg := { codes := some zzzCodes, cache := emptyCache }

/-- A successful upstream outcome quoting usd and eur. -/
def upOk : Upstream := Upstream.response 200 (Except.ok [usdItem, eurItem])

/-- A successful upstream outcome whose usd value text is not a number. -/
def upBadValue : Upstream := Upstream.response 200 (Except.ok [badItem])


/-- The date string used by concrete runs.  Dates are modelled as opaque
strings serving both as cache key and echoed date. -/
def dateD : Str := "2016-12-08".toList

/-- The rate table currencyMap builds from the usd-and-eur feed. -/
def wTbl : List (Str × ℚ) :=
  ((currencyMap [usdItem, eurItem]).toOption).getD []

/-- cfgThree after a successful fetch for dateD. -/
def cfgThreeAfter : Cfg :=
  { codes := some threeCodes,
    cache := { size := 4, entries := [(dateD, [usdItem, eurItem])] } }

/-- Concrete run: resolve 5 usd, 20 eur on the fresh engine. -/
def res52 : Except RateError Info × Cfg × Bool :=
  getRates cfgThree dateD ("5 usd, 20 eur".toList) upOk

/-- The successful payload of res52. -/
def info52 : Info := (res52.1.toOption).getD { date := [], rates := [] }

/-- Concrete run: resolve 5 usd on the fresh engine. -/
def res5 : Except RateError Info × Cfg × Bool :=
  getRates cfgThree dateD ("5 usd".toList) upOk

/-- The successful payload of res5. -/
def info5 : Info := (res5.1.toOption).getD { date := [], rates := [] }

/-- Concrete run: resolve the mixed-case, padded query on the fresh
engine. -/
def resU : Except RateError Info × Cfg × Bool :=
  getRates cfgThree dateD (" 5 USD".toList) upOk

/-- The successful payload of resU. -/
def infoU : Info := (resU.1.toOption).getD { date := [], rates := [] }

/-- The rate table built from the usd-only feed, as the engine builds
it. -/
def infoUsdOnly : List (Str × ℚ) :=
  ((currencyMap [usdItem]).toOption).getD []

/-! Claim theorems, preceded by the helper lemmas they need. -/

/-- Claim C2: rounding to 2 decimal places is round-half-up — values
exactly at the 0.005 boundary round away from zero, and in particular
round (2.005, 2) = 2.01.  Stated over the exact-rational model of the
source's explicit Modf-and-compare implementation; the general conjunct
covers every boundary value k/100 + 0.005. -/
theorem c2_round_half_up :
    Exchange.round (2005/1000) 2 = 201/100 ∧
    ∀ k : ℕ, Exchange.round ((k : ℚ)/100 + 5/1000) 2 = ((k : ℚ) + 1)/100 := by
  constructor
  · unfold Exchange.round truncQ
    norm_num
    rw [show ⌈(401/2 : ℚ)⌉ = 201 by norm_num [Int.ceil_eq_iff]]
    norm_num
  · intro k
    have hd : (10:ℚ)^2 * ((k : ℚ)/100 + 5/1000) = (k : ℚ) + 1/2 := by ring
    have hf : ⌊(k:ℚ) + 1/2⌋ = (k:ℤ) := by
      rw [Int.floor_eq_iff]
      constructor
      · push_cast; linarith
      · push_cast; linarith
    have hc : ⌈(k:ℚ) + 1/2⌉ = (k:ℤ) + 1 := by
      rw [Int.ceil_eq_iff]
      constructor
      · push_cast; linarith
      · push_cast; linarith
    simp only [Exchange.round, truncQ]
    rw [hd]
    split_ifs with h1 h2 h3
    · rw [hc]; push_cast; ring
    · exfalso
      apply h2
      rw [hf]
      push_cast
      linarith
    · exfalso
      apply h1
      have hk : (0:ℚ) ≤ (k:ℚ) := Nat.cast_nonneg k
      linarith
    · exfalso
      apply h1
      have hk : (0:ℚ) ≤ (k:ℚ) := Nat.cast_nonneg k
      linarith

/-- Claim C4: on a timeout dayRates does return the distinct timed-out
error, but the late-arriving response is not discarded safely: once the
timeout branch of the select has returned (closing the unbuffered
channel ec by the deferred close, with the send still pending), the
abandoned goroutine's send executes on a closed channel and panics,
crashing the process — so the claimed "no party needs to still be
receiving" safety does not hold of the code. -/
theorem c4_timeout_then_late_send_panics :
    dayRates cfgThree ("2016-12-08".toList) Upstream.timeout =
      (Except.error DayErr.timedOut, cfgThree, true) ∧
    ProtoStep { chan := ChanSt.opened, sent := false, panicked := false }
      { chan := ChanSt.closed, sent := false, panicked := false } ∧
    ProtoStep { chan := ChanSt.closed, sent := false, panicked := false }
      { chan := ChanSt.closed, sent := true, panicked := true } := by
  refine ⟨by decide, ?_, ?_⟩
  · exact ProtoStep.timeoutReturn _ rfl rfl
  · exact ProtoStep.lateSend _ rfl rfl

/-- Claim C1, counterexample: with usd configured with the symbol alias
"$" (an alias the claim explicitly includes), the single-segment query
"5 $" of the claimed form "value space alias" parses to no currency and
value 0, not to usd with value 5: the dollar sign is spliced into the
pattern verbatim, where regexp reads it as an end-of-text anchor, so the
pattern matches "5" only at the end of the text and "5 $" matches
nothing. -/
theorem c1_counterexample :
    (buildCodes [("usd".toList, ["$".toList])]).isSome = true ∧
    parseSegment dollarCodes ("5 $".toList) =
      { msg := "5 $".toList, currency := [], value := 0 } ∧
    ¬ ((parseSegment dollarCodes ("5 $".toList)).currency = "usd".toList ∧
       (parseSegment dollarCodes ("5 $".toList)).value = 5) := by decide

/-- Claim C3, counterexample: zzz is a configured required currency and
is absent from the day's rate table (built from a usd-only feed), yet
resolving "1 usd" succeeds — the conversion loop reads the missing rate
as the Go map zero value instead of failing, so only the parsed
currency's absence aborts a call, not a required currency's. -/
theorem c3_counterexample :
    ("zzz".toList) ∈ zzzCodes.map Prod.fst ∧
    lookupA infoUsdOnly ("zzz".toList) = none ∧
    (getRates cfgZzz ("2016-12-08".toList) ("1 usd".toList)
        (Upstream.response 200 (Except.ok [usdItem]))).1.isOk = true := by decide

/-- Claim C6, counterexample: a response that decodes as XML but whose
rate value text is not a number makes the call fail with the
internal-error class 500, not the service-unavailable class 503, and the
daily rate cache IS populated for that date (dayRates caches the decoded
response before currencyMap rejects the value). -/
theorem c6_counterexample :
    getRates cfgThree ("2016-12-08".toList) ("1 usd".toList) upBadValue =
      (Except.error { httpCode := 500, msg := "internal error" },
       { codes := some threeCodes,
         cache := { size := 4, entries := [("2016-12-08".toList, [badItem])] } }, true) := by decide

/-! Supporting lemmas for the remaining claims. -/

lemma splitComma_ne_nil (s : Str) : splitComma s ≠ [] := by
  cases s with
  | nil => simp [splitComma]
  | cons c t =>
    simp only [splitComma]
    split
    · simp
    · split <;> simp

lemma buildCodes_none_iff (cn : List (Str × List Str)) :
    buildCodes cn = none ↔ ∃ p ∈ cn, patternsFor p.1 p.2 = none := by
  induction cn with
  | nil => simp [buildCodes]
  | cons hd tl ih =>
    obtain ⟨code, names⟩ := hd
    cases hp : patternsFor code names with
    | none =>
      exact iff_of_true (by simp [buildCodes, hp])
        ⟨(code, names), List.mem_cons_self _ _, hp⟩
    | some ps =>
      cases hb : buildCodes tl with
      | none =>
        refine iff_of_true (by simp [buildCodes, hp, hb]) ?_
        obtain ⟨p, hm, hn⟩ := ih.1 hb
        exact ⟨p, List.mem_cons_of_mem _ hm, hn⟩
      | some built =>
        apply iff_of_false
        · simp [buildCodes, hp, hb]
        · rintro ⟨p, hm, hn⟩
          rcases List.mem_cons.1 hm with h1 | h2
          · subst h1; simp [hp] at hn
          · exact absurd (ih.2 ⟨p, h2, hn⟩) (by simp [hb])

lemma reqRates_ok_msgs {codes : List (Str × List Pat)} :
    ∀ {msgs : List ParsedMsg} {info : List (Str × ℚ)} {items : List RateItem},
    reqRates codes msgs info = Except.ok items →
    items.map (fun it => it.msg) = msgs.map (fun m => m.msg)
  | [], info, items, h => by
    simp only [reqRates] at h
    cases h
    simp
  | m :: rest, info, items, h => by
    simp only [reqRates] at h
    cases hl : lookupA info m.currency with
    | none => rw [hl] at h; cases h
    | some rate =>
      rw [hl] at h
      cases hr : reqRates codes rest info with
      | error e => rw [hr] at h; cases h
      | ok its =>
        rw [hr] at h
        cases h
        simpa using reqRates_ok_msgs hr

lemma reqRates_err_of_unknown {codes : List (Str × List Pat)} :
    ∀ {msgs : List ParsedMsg} {info : List (Str × ℚ)},
    (∃ m ∈ msgs, lookupA info m.currency = none) →
    ∃ e, reqRates codes msgs info = Except.error e
  | [], info, h => by
    obtain ⟨m, hm, _⟩ := h
    cases hm
  | m :: rest, info, h => by
    cases hl : lookupA info m.currency with
    | none => exact ⟨"unknown currency", by simp [reqRates, hl]⟩
    | some rate =>
      obtain ⟨m2, hm2, hn2⟩ := h
      rcases List.mem_cons.1 hm2 with h1 | h2
      · subst h1; rw [hl] at hn2; cases hn2
      · obtain ⟨e, he⟩ := @reqRates_err_of_unknown codes _ _ ⟨m2, h2, hn2⟩
        refine ⟨e, ?_⟩
        simp [reqRates, hl, he]

lemma getRates_ok_intro {c : Cfg} {codes : List (Str × List Pat)} {date q : Str}
    {up : Upstream} {rr : List CurrencyItem} {c2 : Cfg} {used : Bool}
    {tbl : List (Str × ℚ)} {items : List RateItem}
    (hc : c.codes = some codes)
    (hday : dayRates c date up = (Except.ok rr, c2, used))
    (htbl : currencyMap rr = Except.ok tbl)
    (hreq : reqRates codes (parseMsgF codes (splitComma (lowerStr q))) tbl = Except.ok items) :
    getRates c date q up = (Except.ok { date := date, rates := items }, c2, used) := by
  have hne : ¬ (splitComma (lowerStr q)).length = 0 :=
    fun h => splitComma_ne_nil _ (List.length_eq_zero.1 h)
  simp only [getRates, hc, if_neg hne, hday, htbl, hreq]

lemma getRates_err400_intro {c : Cfg} {codes : List (Str × List Pat)} {date q : Str}
    {up : Upstream} {rr : List CurrencyItem} {c2 : Cfg} {used : Bool}
    {tbl : List (Str × ℚ)} {e : String}
    (hc : c.codes = some codes)
    (hday : dayRates c date up = (Except.ok rr, c2, used))
    (htbl : currencyMap rr = Except.ok tbl)
    (hreq : reqRates codes (parseMsgF codes (splitComma (lowerStr q))) tbl = Except.error e) :
    getRates c date q up =
      (Except.error { httpCode := 400, msg := "prepare rates error" }, c2, used) := by
  have hne : ¬ (splitComma (lowerStr q)).length = 0 :=
    fun h => splitComma_ne_nil _ (List.length_eq_zero.1 h)
  simp only [getRates, hc, if_neg hne, hday, htbl, hreq]

lemma getRates_err503_intro {c : Cfg} {codes : List (Str × List Pat)} {date q : Str}
    {up : Upstream} {de : DayErr} {c2 : Cfg} {used : Bool}
    (hc : c.codes = some codes)
    (hday : dayRates c date up = (Except.error de, c2, used)) :
    getRates c date q up =
      (Except.error { httpCode := 503, msg := "get daily rates" }, c2, used) := by
  have hne : ¬ (splitComma (lowerStr q)).length = 0 :=
    fun h => splitComma_ne_nil _ (List.length_eq_zero.1 h)
  simp only [getRates, hc, if_neg hne, hday]

lemma getRates_err500_intro {c : Cfg} {codes : List (Str × List Pat)} {date q : Str}
    {up : Upstream} {rr : List CurrencyItem} {c2 : Cfg} {used : Bool} {e : String}
    (hc : c.codes = some codes)
    (hday : dayRates c date up = (Except.ok rr, c2, used))
    (htbl : currencyMap rr = Except.error e) :
    getRates c date q up =
      (Except.error { httpCode := 500, msg := "internal error" }, c2, used) := by
  have hne : ¬ (splitComma (lowerStr q)).length = 0 :=
    fun h => splitComma_ne_nil _ (List.length_eq_zero.1 h)
  simp only [getRates, hc, if_neg hne, hday, htbl]

lemma getRates_ok_elim {c : Cfg} {date q : Str} {up : Upstream}
    {info : Info} {c2 : Cfg} {used : Bool}
    (h : getRates c date q up = (Except.ok info, c2, used)) :
    ∃ codes rr tbl items, c.codes = some codes ∧
      dayRates c date up = (Except.ok rr, c2, used) ∧
      currencyMap rr = Except.ok tbl ∧
      reqRates codes (parseMsgF codes (splitComma (lowerStr q))) tbl = Except.ok items ∧
      info = { date := date, rates := items } := by
  cases hc : c.codes with
  | none => rw [getRates, hc] at h; simp at h
  | some codes =>
    have hne : ¬ (splitComma (lowerStr q)).length = 0 :=
      fun hz => splitComma_ne_nil _ (List.length_eq_zero.1 hz)
    rw [getRates, hc] at h
    simp only [if_neg hne] at h
    split at h
    · simp at h
    · rename_i rr c3 used3 heq
      split at h
      · simp at h
      · rename_i tbl htbl
        split at h
        · simp at h
        · rename_i items hreq
          simp only [Prod.mk.injEq, Except.ok.injEq] at h
          obtain ⟨h1, h2, h3⟩ := h
          subst h2
          subst h3
          exact ⟨codes, rr, tbl, items, rfl, heq, htbl, hreq, h1.symm⟩

lemma parseSegGo_msg (cs : List (Str × List Pat)) (r : ParsedMsg) :
    (parseSegGo cs r).msg = r.msg := by
  induction cs generalizing r with
  | nil => rfl
  | cons hd rest ih =>
    obtain ⟨cur, ps⟩ := hd
    simp only [parseSegGo]
    cases htp : tryPatsList ps r.msg with
    | some v =>
      simp only [htp]
      split
      · rfl
      · rw [ih]
    | none =>
      simp only [htp]
      split
      · rfl
      · rw [ih]

lemma parseSegment_msg (codes : List (Str × List Pat)) (m : Str) :
    (parseSegment codes m).msg = trimSpaces m := by
  unfold parseSegment
  rw [parseSegGo_msg]

lemma parseMsgF_msgs (codes : List (Str × List Pat)) (segs : List Str) :
    (parseMsgF codes segs).map (fun m => m.msg) = segs.map trimSpaces := by
  unfold parseMsgF
  rw [List.map_map]
  simp [Function.comp, parseSegment_msg]

lemma matchToks_nil_out : ∀ (toks : List ATok) {r : Str}, matchToks toks [] = some r → r = []
  | [], r, h => by
    simp only [matchToks, Option.some.injEq] at h
    exact h.symm
  | ATok.lit c :: ts, r, h => by simp [matchToks] at h
  | ATok.endA :: ts, r, h => by
    simp only [matchToks, List.isEmpty_nil, if_true] at h
    exact matchToks_nil_out ts h

lemma tryPatAt_nil (p : Pat) : tryPatAt p [] = none := by
  cases p with
  | amountFirst toks => rfl
  | aliasFirst toks =>
    show tryAliasFirstAt toks [] = none
    unfold tryAliasFirstAt
    cases hm : matchToks toks [] with
    | none => rfl
    | some r =>
      have hr := matchToks_nil_out toks hm
      subst hr
      rfl

lemma findPat_nil (p : Pat) : findPat p [] = none := by
  rw [findPat]
  exact tryPatAt_nil p

lemma tryPatsList_nil (ps : List Pat) : tryPatsList ps [] = none := by
  induction ps with
  | nil => rfl
  | cons p rest ih =>
    simp only [tryPatsList, findPat_nil p]
    exact ih

lemma parseSegGo_empty (codes : List (Str × List Pat)) :
    parseSegGo codes { msg := [], currency := [], value := 0 } =
      { msg := [], currency := [], value := 0 } := by
  induction codes with
  | nil => rfl
  | cons hd rest ih =>
    obtain ⟨cur, ps⟩ := hd
    simp only [parseSegGo, tryPatsList_nil]
    rw [if_neg (by norm_num)]
    exact ih

lemma parseSegment_nil (codes : List (Str × List Pat)) :
    parseSegment codes [] = { msg := [], currency := [], value := 0 } :=
  parseSegGo_empty codes

lemma reqRates_ok_keys {codes : List (Str × List Pat)} :
    ∀ {msgs : List ParsedMsg} {info : List (Str × ℚ)} {items : List RateItem},
    reqRates codes msgs info = Except.ok items →
    items.map (fun it => it.rate.map Prod.fst) =
      List.replicate items.length (codes.map Prod.fst)
  | [], info, items, h => by
    simp only [reqRates] at h
    cases h
    simp
  | m :: rest, info, items, h => by
    simp only [reqRates] at h
    cases hl : lookupA info m.currency with
    | none => rw [hl] at h; cases h
    | some rate =>
      rw [hl] at h
      cases hr : reqRates codes rest info with
      | error e => rw [hr] at h; cases h
      | ok its =>
        rw [hr] at h
        cases h
        simp only [List.map_cons, List.length_cons, List.replicate_succ]
        rw [reqRates_ok_keys hr]
        simp [List.map_map]

lemma lruGet_none_of_absent {cache : LruCache} {date : Str}
    (hmiss : ∀ e ∈ cache.entries, ¬ e.1 = date) :
    cache.get date = (none, cache) := by
  unfold LruCache.get
  rw [List.find?_eq_none.2 (by simpa using hmiss)]

lemma dayRates_ok_front {c : Cfg} {date : Str} {up : Upstream}
    {rr : List CurrencyItem} {c2 : Cfg} {used : Bool}
    (hsz : 1 ≤ c.cache.size)
    (h : dayRates c date up = (Except.ok rr, c2, used)) :
    c2.codes = c.codes ∧ c2.cache.size = c.cache.size ∧
    ∃ tail, c2.cache.entries = (date, rr) :: tail := by
  unfold dayRates at h
  cases hget : c.cache.get date with
  | mk vres cache2 =>
    rw [hget] at h
    cases vres with
    | some v =>
      simp only [Prod.mk.injEq, Except.ok.injEq] at h
      obtain ⟨h1, h2, h3⟩ := h
      subst h1 h2
      -- dissect the hit form of get
      unfold LruCache.get at hget
      cases hf : c.cache.entries.find? (fun e => e.1 = date) with
      | none => rw [hf] at hget; simp at hget
      | some e =>
        rw [hf] at hget
        simp only [Prod.mk.injEq, Option.some.injEq] at hget
        obtain ⟨hv, hcache⟩ := hget
        subst hv
        refine ⟨rfl, ?_, ?_⟩
        · rw [← hcache]
        · rw [← hcache]
          exact ⟨_, rfl⟩
    | none =>
      cases up with
      | timeout => simp at h
      | netError e => simp at h
      | response status body =>
        simp only [ne_eq] at h
        by_cases hs : status = 200
        · subst hs
          rw [if_neg (by simp)] at h
          cases body with
          | error e => simp at h
          | ok rr2 =>
            simp only [Prod.mk.injEq, Except.ok.injEq] at h
            obtain ⟨h1, h2, h3⟩ := h
            subst h1 h2
            refine ⟨rfl, rfl, ?_⟩
            unfold LruCache.add
            obtain ⟨n, hn⟩ : ∃ n, c.cache.size = n + 1 :=
              ⟨c.cache.size - 1, by omega⟩
            rw [hn]
            exact ⟨_, by rw [List.take_succ_cons]⟩
        · rw [if_pos hs] at h
          simp at h

lemma dayRates_hit {c : Cfg} {date : Str} {rr : List CurrencyItem} {tail : List (Str × List CurrencyItem)}
    (h : c.cache.entries = (date, rr) :: tail) (up : Upstream) :
    dayRates c date up =
      (Except.ok rr,
       { c with cache := { size := c.cache.size,
                           entries := (date, rr) :: tail.filter (fun e => ¬ e.1 = date) } },
       false) := by
  have hget : c.cache.get date =
      (some rr, { size := c.cache.size,
                  entries := (date, rr) :: tail.filter (fun e => ¬ e.1 = date) }) := by
    unfold LruCache.get
    rw [h]
    simp [List.find?]
  unfold dayRates
  rw [hget]

/-- Claim C3, amended: a batch containing an amount whose PARSED currency
(including the empty currency of an unmatched segment) is absent from
the day's rate table fails wholesale with the client-input class 400 and
returns no partial result; a configured REQUIRED currency absent from
the table does not fail the call (see the counterexample: its converted
values are computed from the Go map zero value instead). -/
theorem c3_unknown_parsed_currency_fails (c : Cfg) (codes : List (Str × List Pat))
    (date q : Str) (up : Upstream) (rr : List CurrencyItem) (c2 : Cfg) (used : Bool)
    (tbl : List (Str × ℚ))
    (hc : c.codes = some codes)
    (hday : dayRates c date up = (Except.ok rr, c2, used))
    (htbl : currencyMap rr = Except.ok tbl)
    (hunknown : ∃ m ∈ parseMsgF codes (splitComma (lowerStr q)), lookupA tbl m.currency = none) :
    getRates c date q up =
      (Except.error { httpCode := 400, msg := "prepare rates error" }, c2, used) := by
  obtain ⟨e, he⟩ := @reqRates_err_of_unknown codes _ _ hunknown
  exact getRates_err400_intro hc hday htbl he

/-- Witness for the amended C3 at the concrete query "3 zzz" with zzz
unconfigured: the segment parses with the absent currency and the call
fails with 400. -/
theorem c3_witness :
    cfgThree.codes = some threeCodes ∧
    getRates cfgThree dateD ("3 zzz".toList) upOk =
      (Except.error { httpCode := 400, msg := "prepare rates error" }, cfgThreeAfter, true) :=
  ⟨rfl,
   c3_unknown_parsed_currency_fails cfgThree threeCodes dateD ("3 zzz".toList) upOk
     [usdItem, eurItem] cfgThreeAfter true wTbl rfl (by decide) rfl (by decide)⟩

/-- Claim C6, amended: a non-success response status, or a body that
fails XML decoding, makes the call fail with the service-unavailable
class 503 and leaves the daily rate cache unchanged (the date is not
populated).  A body that decodes but carries an unparseable rate value
instead fails later with the internal class 500 after the cache has
already been populated (see the counterexample). -/
theorem c6_upstream_failure_503_no_cache (c : Cfg) (codes : List (Str × List Pat))
    (date q : Str) (status : ℕ) (body : Except String (List CurrencyItem))
    (hc : c.codes = some codes)
    (hmiss : ∀ e ∈ c.cache.entries, ¬ e.1 = date)
    (hbad : status ≠ 200 ∨ ∃ em, body = Except.error em) :
    getRates c date q (Upstream.response status body) =
      (Except.error { httpCode := 503, msg := "get daily rates" }, c, true) := by
  have hget : c.cache.get date = (none, c.cache) := lruGet_none_of_absent hmiss
  have hday : ∃ de, dayRates c date (Upstream.response status body) =
      (Except.error de, c, true) := by
    unfold dayRates
    rw [hget]
    simp only [ne_eq]
    by_cases hs : status = 200
    · subst hs
      rw [if_neg (by simp)]
      rcases hbad with hstat | ⟨em, hbody⟩
      · exact absurd rfl hstat
      · subst hbody
        exact ⟨DayErr.decode em, rfl⟩
    · rw [if_pos hs]
      exact ⟨DayErr.notOk status, rfl⟩
  obtain ⟨de, hday⟩ := hday
  exact getRates_err503_intro hc hday

/-- Witness for the amended C6 at a concrete 404 response: 503 error and
the configuration (cache included) unchanged. -/
theorem c6_witness :
    cfgThree.codes = some threeCodes ∧
    getRates cfgThree dateD ("1 usd".toList) (Upstream.response 404 (Except.ok [])) =
      (Except.error { httpCode := 503, msg := "get daily rates" }, cfgThree, true) :=
  ⟨rfl,
   c6_upstream_failure_503_no_cache cfgThree threeCodes dateD ("1 usd".toList) 404
     (Except.ok []) rfl (by decide) (Or.inl (by decide))⟩

/-- Claim C8: a successful resolution has exactly one item per input
segment, the items mirror the segment order (their echoed messages are
the trimmed segments, index for index), and every item's rate mapping
has exactly the configured required currencies as keys, one entry
each. -/
theorem c8_one_item_per_segment (c : Cfg) (codes : List (Str × List Pat))
    (date q : Str) (up : Upstream) (info : Info) (c2 : Cfg) (used : Bool)
    (hc : c.codes = some codes)
    (h : getRates c date q up = (Except.ok info, c2, used)) :
    info.rates.length = (splitComma (lowerStr q)).length ∧
    info.rates.map (fun it => it.msg) = (splitComma (lowerStr q)).map trimSpaces ∧
    info.rates.map (fun it => it.rate.map Prod.fst) =
      List.replicate info.rates.length (codes.map Prod.fst) := by
  obtain ⟨codes2, rr, tbl, items, hc2, hday, htbl, hreq, hinfo⟩ := getRates_ok_elim h
  have hcc : codes2 = codes := by
    rw [hc] at hc2
    injection hc2 with hc2
    exact hc2.symm
  subst hcc
  subst hinfo
  have hmsgs := reqRates_ok_msgs hreq
  have hchain : items.map (fun it => it.msg) = (splitComma (lowerStr q)).map trimSpaces := by
    rw [hmsgs, parseMsgF_msgs]
  refine ⟨?_, hchain, reqRates_ok_keys hreq⟩
  have := congrArg List.length hchain
  simpa using this

/-- Witness for C8 at the concrete two-segment query. -/
theorem c8_witness :
    cfgThree.codes = some threeCodes ∧
    res52.1.isOk = true ∧
    info52.rates.map (fun it => it.msg) = ["5 usd".toList, "20 eur".toList] ∧
    (info52.rates.length = (splitComma (lowerStr ("5 usd, 20 eur".toList))).length ∧
     info52.rates.map (fun it => it.msg) =
       (splitComma (lowerStr ("5 usd, 20 eur".toList))).map trimSpaces ∧
     info52.rates.map (fun it => it.rate.map Prod.fst) =
       List.replicate info52.rates.length (threeCodes.map Prod.fst)) :=
  ⟨rfl, by decide, by decide,
   c8_one_item_per_segment cfgThree threeCodes dateD ("5 usd, 20 eur".toList) upOk
     info52 res52.2.1 res52.2.2 rfl rfl⟩

/-- Claim C9: splitting the empty query yields the one-element list of
the empty segment, so the empty-input branch of GetRates is unreachable:
a successful resolution of the empty query always carries exactly one
item (never the empty rate list), and when the day's table is available
and has no empty-string key, the empty segment's absent currency makes
the call fail with the client-input class 400. -/
theorem c9_empty_query (c : Cfg) (codes : List (Str × List Pat)) (date : Str) (up : Upstream)
    (hc : c.codes = some codes) :
    splitComma (lowerStr []) = [[]] ∧
    (∀ info c2 used, getRates c date [] up = (Except.ok info, c2, used) →
      info.rates.length = 1) ∧
    (∀ rr c2 used tbl, dayRates c date up = (Except.ok rr, c2, used) →
      currencyMap rr = Except.ok tbl → lookupA tbl [] = none →
      getRates c date [] up =
        (Except.error { httpCode := 400, msg := "prepare rates error" }, c2, used)) := by
  refine ⟨rfl, ?_, ?_⟩
  · intro info c2 used h
    obtain ⟨codes2, rr, tbl, items, hc2, hday, htbl, hreq, hinfo⟩ := getRates_ok_elim h
    subst hinfo
    have hmsgs := reqRates_ok_msgs hreq
    have hlen := congrArg List.length hmsgs
    simpa [parseMsgF] using hlen
  · intro rr c2 used tbl hday htbl hlk
    have hmem : parseSegment codes [] ∈ parseMsgF codes (splitComma (lowerStr [])) := by
      simp [parseMsgF, splitComma, lowerStr]
    have hcur : (parseSegment codes []).currency = [] := by
      rw [parseSegment_nil]
    obtain ⟨e, he⟩ := @reqRates_err_of_unknown codes _ _
      ⟨parseSegment codes [], hmem, by rw [hcur]; exact hlk⟩
    exact getRates_err400_intro hc hday htbl he

/-- Witness for C9: resolving the empty query against the fetched table
fails with 400 (and not with a successful empty result). -/
theorem c9_witness :
    cfgThree.codes = some threeCodes ∧
    getRates cfgThree dateD [] upOk =
      (Except.error { httpCode := 400, msg := "prepare rates error" }, cfgThreeAfter, true) :=
  ⟨rfl,
   (c9_empty_query cfgThree threeCodes dateD upOk rfl).2.2 [usdItem, eurItem]
     cfgThreeAfter true wTbl (by decide) rfl (by decide)⟩

/-- Claim C10: the message echoed in the i-th result item is the i-th
segment of the lower-cased query, with surrounding spaces trimmed — the
query is lower-cased before splitting and each segment trimmed before
matching, not echoed verbatim. -/
theorem c10_msg_lowercased_trimmed (c : Cfg)
    (date q : Str) (up : Upstream) (info : Info) (c2 : Cfg) (used : Bool)
    (h : getRates c date q up = (Except.ok info, c2, used)) :
    ∀ i (hi : i < info.rates.length) (hj : i < (splitComma (lowerStr q)).length),
      (info.rates.get ⟨i, hi⟩).msg = trimSpaces ((splitComma (lowerStr q)).get ⟨i, hj⟩) := by
  obtain ⟨codes2, rr, tbl, items, hc2, hday, htbl, hreq, hinfo⟩ := getRates_ok_elim h
  subst hinfo
  have hchain : items.map (fun it => it.msg) = (splitComma (lowerStr q)).map trimSpaces := by
    rw [reqRates_ok_msgs hreq, parseMsgF_msgs]
  intro i hi hj
  have hi2 : i < (items.map (fun it => it.msg)).length := by simpa using hi
  have h1 := List.get_of_eq hchain ⟨i, hi2⟩
  rw [List.get_map] at h1
  rw [List.get_map] at h1
  exact h1

/-- Witness for C10: the segment " 5 USD" is echoed as the lower-cased,
trimmed "5 usd". -/
theorem c10_witness :
    cfgThree.codes = some threeCodes ∧
    (infoU.rates.get ⟨0, by decide⟩).msg =
      trimSpaces ((splitComma (lowerStr (" 5 USD".toList))).get ⟨0, by decide⟩) ∧
    trimSpaces ((splitComma (lowerStr (" 5 USD".toList))).get ⟨0, by decide⟩) = "5 usd".toList :=
  ⟨rfl,
   c10_msg_lowercased_trimmed cfgThree dateD (" 5 USD".toList) upOk
     infoU resU.2.1 resU.2.2 rfl 0 (by decide) (by decide),
   by decide⟩

/-- Claim C5: after one successful resolution for a date, resolving the
same date and query again consults the cache first and succeeds with the
same result without a second outbound request (third component false),
whatever the upstream does — in particular when it is unreachable. -/
theorem c5_second_call_cached (c : Cfg) (date q : Str) (up1 up2 : Upstream)
    (info : Info) (c2 : Cfg) (used : Bool)
    (hsz : 1 ≤ c.cache.size)
    (h : getRates c date q up1 = (Except.ok info, c2, used)) :
    (getRates c2 date q up2).1 = Except.ok info ∧
    (getRates c2 date q up2).2.2 = false := by
  obtain ⟨codes, rr, tbl, items, hc, hday, htbl, hreq, hinfo⟩ := getRates_ok_elim h
  obtain ⟨hcodes, hsize, tail, hfront⟩ := dayRates_ok_front hsz hday
  have hday2 := @dayRates_hit c2 date _ _ hfront up2
  have hc2 : c2.codes = some codes := by rw [hcodes, hc]
  subst hinfo
  have := getRates_ok_intro hc2 hday2 htbl hreq
  rw [this]
  exact ⟨rfl, rfl⟩

/-- Witness for C5: a second resolution of 5 usd for the same date
succeeds from the cache with the net unreachable and no outbound
request. -/
theorem c5_witness :
    1 ≤ cfgThree.cache.size ∧
    res5.1.isOk = true ∧
    (getRates res5.2.1 dateD ("5 usd".toList) (Upstream.netError "unreachable")).1 =
      Except.ok info5 ∧
    (getRates res5.2.1 dateD ("5 usd".toList) (Upstream.netError "unreachable")).2.2 =
      false :=
  ⟨by decide, by decide,
   (c5_second_call_cached cfgThree dateD ("5 usd".toList) upOk
     (Upstream.netError "unreachable") info5 res5.2.1 res5.2.2 (by decide) rfl).1,
   (c5_second_call_cached cfgThree dateD ("5 usd".toList) upOk
     (Upstream.netError "unreachable") info5 res5.2.1 res5.2.2 (by decide) rfl).2⟩


/-- Claim C7: SetRequiredCodes is atomic replace-or-fail — if any
configured alias (or code) fails to compile into a pattern, the whole
call errors and the previously installed registry is untouched; on
success the whole registry is replaced by the newly built one. -/
theorem c7_atomic_replace (c : Cfg) (cn : List (Str × List Str)) :
    ((∃ p ∈ cn, patternsFor p.1 p.2 = none) →
      setRequiredCodes c cn = (Except.error "compile", c)) ∧
    ((∀ p ∈ cn, patternsFor p.1 p.2 ≠ none) →
      ∃ codes, buildCodes cn = some codes ∧
        setRequiredCodes c cn = (Except.ok (), { c with codes := some codes })) := by
  constructor
  · intro h
    have hb : buildCodes cn = none := (buildCodes_none_iff cn).2 h
    simp [setRequiredCodes, hb]
  · intro h
    cases hb : buildCodes cn with
    | none =>
      obtain ⟨p, hm, hn⟩ := (buildCodes_none_iff cn).1 hb
      exact absurd hn (h p hm)
    | some codes =>
      exact ⟨codes, rfl, by simp [setRequiredCodes, hb]⟩

/-- Witness for C7: an unbalanced-parenthesis alias fails the whole call
and leaves the registry as it was; the repository test's own alias map
replaces it wholesale. -/
theorem c7_witness :
    setRequiredCodes { codes := some demoCodes, cache := emptyCache }
        [("usd".toList, ["(".toList])] =
      (Except.error "compile", { codes := some demoCodes, cache := emptyCache }) ∧
    ∃ codes, buildCodes [("usd".toList, ["$".toList, "dollar".toList])] = some codes ∧
      setRequiredCodes { codes := some demoCodes, cache := emptyCache }
          [("usd".toList, ["$".toList, "dollar".toList])] =
        (Except.ok (), { codes := some codes, cache := emptyCache }) :=
  ⟨(c7_atomic_replace _ _).1 (by decide), (c7_atomic_replace _ _).2 (by decide)⟩


/-! Development for the amended claim C1: correctness of the modelled
regex matching on plain aliases and numerals. -/

/-! Character-level facts about plain alias characters and digits. -/

lemma plain_spec {c : Char} (h : plainChar c = true) :
    c.isDigit = false ∧ wsChar c = false ∧ ¬ c = '$' ∧
      metaChars.contains c = false ∧ c.toLower = c := by
  simp only [plainChar, Bool.and_eq_true, Bool.not_eq_true', decide_eq_true_eq,
    decide_eq_false_iff_not] at h
  exact ⟨h.1.1.1.1, h.1.1.1.2, h.1.1.2, h.1.2, h.2⟩

lemma plain_ne_dot {c : Char} (h : plainChar c = true) : ¬ c = '.' := by
  intro hc
  subst hc
  have := (plain_spec h).2.2.2.1
  simp [metaChars, List.contains] at this

lemma plain_ne_space {c : Char} (h : plainChar c = true) : ¬ c = ' ' := by
  intro hc
  subst hc
  have := (plain_spec h).2.1
  simp [wsChar] at this

lemma digit_not_ws {c : Char} (h : c.isDigit = true) : wsChar c = false := by
  cases hw : wsChar c
  · rfl
  · exfalso
    simp only [wsChar, Bool.or_eq_true, decide_eq_true_eq] at hw
    rcases hw with (((h1 | h1) | h1) | h1) | h1 <;> subst h1 <;> exact absurd h (by decide)

lemma digit_ne_dot {c : Char} (h : c.isDigit = true) : ¬ c = '.' := by
  intro hc
  subst hc
  exact absurd h (by decide)

lemma plain_ne_digit {b c : Char} (hb : plainChar b = true) (hc : c.isDigit = true) :
    ¬ b = c := by
  intro he
  subst he
  rw [(plain_spec hb).1] at hc
  cases hc

/-! Span lemmas: takeWhile and dropWhile on a split list. -/

lemma takeWhile_app {p : Char → Bool} :
    ∀ {d r : Str}, (∀ c ∈ d, p c = true) → (∀ c t, r = c :: t → p c = false) →
      (d ++ r).takeWhile p = d
  | [], r, _, hr => by
    cases r with
    | nil => rfl
    | cons c t => simp [List.takeWhile_cons, hr c t rfl]
  | a :: d2, r, hd, hr => by
    have ha : p a = true := hd a (by simp)
    simp [List.takeWhile_cons, ha,
      takeWhile_app (d := d2) (r := r) (fun c hc => hd c (List.mem_cons_of_mem _ hc)) hr]

lemma dropWhile_app {p : Char → Bool} :
    ∀ {d r : Str}, (∀ c ∈ d, p c = true) → (∀ c t, r = c :: t → p c = false) →
      (d ++ r).dropWhile p = r
  | [], r, _, hr => by
    cases r with
    | nil => rfl
    | cons c t => simp [List.dropWhile_cons, hr c t rfl]
  | a :: d2, r, hd, hr => by
    have ha : p a = true := hd a (by simp)
    simp [List.dropWhile_cons, ha,
      dropWhile_app (d := d2) (r := r) (fun c hc => hd c (List.mem_cons_of_mem _ hc)) hr]

lemma takeWhile_nil_of_head {p : Char → Bool} {s : Str}
    (h : ∀ c t, s = c :: t → p c = false) : s.takeWhile p = [] := by
  cases s with
  | nil => rfl
  | cons c t => simp [List.takeWhile_cons, h c t rfl]

lemma head_false_of_takeWhile_nil {p : Char → Bool} {s : Str}
    (h : s.takeWhile p = []) : ∀ c t, s = c :: t → p c = false := by
  intro c t hs
  subst hs
  by_cases hp : p c = true
  · rw [List.takeWhile_cons, if_pos hp] at h
    cases h
  · exact Bool.eq_false_iff.2 hp

/-! splitsDesc: structure of the greedy split list. -/

lemma splitsDesc_head : ∀ (d : Str), ∃ rest, splitsDesc d = (d, []) :: rest
  | [] => ⟨[], rfl⟩
  | c :: t => by
    obtain ⟨rest, hr⟩ := splitsDesc_head t
    refine ⟨List.map (fun p => (c :: p.1, p.2)) rest ++ [([], c :: t)], ?_⟩
    simp [splitsDesc, hr]

lemma splitsDesc_mem : ∀ {d : Str} {pq : Str × Str}, pq ∈ splitsDesc d → pq.1 ++ pq.2 = d
  | [], pq, h => by
    simp only [splitsDesc, List.mem_singleton] at h
    subst h
    rfl
  | c :: t, pq, h => by
    simp only [splitsDesc, List.mem_append, List.mem_map, List.mem_singleton] at h
    rcases h with ⟨p2, hp2, rfl⟩ | rfl
    · simp [splitsDesc_mem hp2]
    · rfl

/-! matchToks on fully literal token lists. -/

lemma matchToks_app (b r : Str) : matchToks (litToks b) (b ++ r) = some r := by
  induction b with
  | nil => rfl
  | cons a t ih =>
    simp only [litToks] at ih
    simp [litToks, matchToks, ih]

lemma matchToks_eq_append : ∀ {b s r : Str}, matchToks (litToks b) s = some r → s = b ++ r
  | [], s, r, h => by
    simp only [litToks, List.map_nil, matchToks, Option.some.injEq] at h
    simp [h]
  | a :: t, s, r, h => by
    cases s with
    | nil => simp [litToks, matchToks] at h
    | cons x xs =>
      simp only [litToks, List.map_cons, matchToks] at h
      by_cases hx : x = a
      · subst hx
        rw [if_pos rfl] at h
        have := matchToks_eq_append (b := t) h
        simp [this]
      · rw [if_neg hx] at h
        cases h

lemma matchToks_none_of_not_pre {b s : Str} (h : ¬ b <+: s) :
    matchToks (litToks b) s = none := by
  cases hm : matchToks (litToks b) s with
  | none => rfl
  | some r => exact absurd ⟨r, (matchToks_eq_append hm).symm⟩ h

lemma not_prefix_head {b x : Char} {B2 xs : Str} (h : ¬ b = x) : ¬ (b :: B2 <+: x :: xs) := by
  rintro ⟨t, ht⟩
  injection ht with h1 _
  exact h h1

/-! firstSome: the ordered backtracking search. -/

lemma firstSome_cons_some {α β : Type} {f : α → Option β} {x : α} {l : List α} {b : β}
    (h : f x = some b) : firstSome f (x :: l) = some b := by
  simp [firstSome, h]

lemma firstSome_none {α β : Type} {f : α → Option β} :
    ∀ {l : List α}, (∀ a ∈ l, f a = none) → firstSome f l = none
  | [], _ => rfl
  | x :: xs, h => by
    simp only [firstSome, h x (by simp)]
    exact firstSome_none (fun a ha => h a (by simp [ha]))

/-! Suffix decomposition. -/

lemma suffix_app_cases {xs ys s : Str} (h : s <:+ xs ++ ys) :
    (∃ x2, x2 <:+ xs ∧ s = x2 ++ ys) ∨ s <:+ ys := by
  induction xs with
  | nil => exact Or.inr (by simpa using h)
  | cons a t ih =>
    rcases List.suffix_cons_iff.1 (by simpa using h) with h1 | h2
    · exact Or.inl ⟨a :: t, List.suffix_refl _, by simpa using h1⟩
    · rcases ih h2 with ⟨x2, hx, hs⟩ | h3
      · exact Or.inl ⟨x2, hx.trans (List.suffix_cons a t), hs⟩
      · exact Or.inr h3

lemma numeral_chars {v : Str} (hv : NumeralStr v) :
    ∀ c ∈ v, c.isDigit = true ∨ c = '.' := by
  rcases hv with ⟨_, hdig⟩ | ⟨d, f, rfl, _, _, hdd, hfd⟩
  · exact fun c hc => Or.inl (hdig c hc)
  · intro c hc
    rcases List.mem_append.1 hc with hc1 | hc2
    · exact Or.inl (hdd c hc1)
    · rcases List.mem_cons.1 hc2 with rfl | hc3
      · exact Or.inr rfl
      · exact Or.inl (hfd c hc3)

/-! Candidate-list lemmas. -/

lemma fracCands_nil : fracCands [] = [] := rfl

lemma fracCands_cons_ne {c : Char} {t : Str} (h : ¬ c = '.') : fracCands (c :: t) = [] := by
  simp only [fracCands]
  rw [if_neg h]

lemma fracCands_head {f r2 : Str} (hne : f ≠ []) (hf : ∀ c ∈ f, Char.isDigit c = true)
    (hr2 : ∀ c t, r2 = c :: t → Char.isDigit c = false) :
    ∃ tail, fracCands ('.' :: (f ++ r2)) = ('.' :: f, r2) :: tail := by
  simp only [fracCands, if_pos trivial, takeWhile_app hf hr2, dropWhile_app hf hr2]
  obtain ⟨rest, hr⟩ := splitsDesc_head f
  rw [hr, List.filterMap_cons]
  simp only [if_neg hne]
  exact ⟨_, rfl⟩

lemma fracCands_mem {f r2 : Str} {q : Str × Str}
    (hf : ∀ c ∈ f, Char.isDigit c = true)
    (hr2 : ∀ c t, r2 = c :: t → Char.isDigit c = false)
    (hq : q ∈ fracCands ('.' :: (f ++ r2))) :
    ∃ f1 f2, f1 ++ f2 = f ∧ f1 ≠ [] ∧ q = ('.' :: f1, f2 ++ r2) := by
  simp only [fracCands, if_pos trivial, takeWhile_app hf hr2, dropWhile_app hf hr2] at hq
  obtain ⟨p, hp, hq2⟩ := List.mem_filterMap.1 hq
  by_cases h1 : p.1 = []
  · rw [if_pos h1] at hq2
    cases hq2
  · rw [if_neg h1] at hq2
    injection hq2 with hq2
    exact ⟨p.1, p.2, splitsDesc_mem hp, h1, hq2.symm⟩

lemma numCands_no_digit {s : Str} (h : s.takeWhile Char.isDigit = []) :
    numCands s = [] := by
  simp only [numCands, h]
  rfl

lemma numCands_head {d r : Str} (hne : d ≠ []) (hd : ∀ c ∈ d, Char.isDigit c = true)
    (hr : ∀ c t, r = c :: t → Char.isDigit c = false) :
    ∃ tail, numCands (d ++ r) =
      ((fracCands r).map (fun fc => (d ++ fc.1, fc.2)) ++ [(d, r)]) ++ tail := by
  simp only [numCands, takeWhile_app hd hr, dropWhile_app hd hr]
  obtain ⟨rest, hsp⟩ := splitsDesc_head d
  rw [hsp, List.flatMap_cons]
  simp only [if_neg hne, List.nil_append]
  exact ⟨_, rfl⟩

lemma numCands_mem {d r : Str} {q : Str × Str}
    (hd : ∀ c ∈ d, Char.isDigit c = true)
    (hr : ∀ c t, r = c :: t → Char.isDigit c = false)
    (hq : q ∈ numCands (d ++ r)) :
    ∃ d1 d2, d1 ++ d2 = d ∧ d1 ≠ [] ∧
      (q = (d1, d2 ++ r) ∨ ∃ fc ∈ fracCands (d2 ++ r), q = (d1 ++ fc.1, fc.2)) := by
  simp only [numCands, takeWhile_app hd hr, dropWhile_app hd hr] at hq
  obtain ⟨p, hp, hq2⟩ := List.mem_flatMap.1 hq
  by_cases h1 : p.1 = []
  · rw [if_pos h1] at hq2
    cases hq2
  · rw [if_neg h1] at hq2
    rcases List.mem_append.1 hq2 with hq3 | hq3
    · obtain ⟨fc, hfc, hq4⟩ := List.mem_map.1 hq3
      exact ⟨p.1, p.2, splitsDesc_mem hp, h1, Or.inr ⟨fc, hfc, hq4.symm⟩⟩
    · rw [List.mem_singleton] at hq3
      exact ⟨p.1, p.2, splitsDesc_mem hp, h1, Or.inl hq3⟩

lemma spaceCands_no_ws {s : Str} (h : s.takeWhile wsChar = []) :
    spaceCands s = [s] := by
  have hd : s.dropWhile wsChar = s := by
    cases s with
    | nil => rfl
    | cons c t =>
      rw [List.dropWhile_cons, if_neg]
      rw [Bool.not_eq_true]
      exact head_false_of_takeWhile_nil h c t rfl
  simp only [spaceCands, h, hd]
  rfl

lemma spaceCands_space {A : Str} (h : A.takeWhile wsChar = []) :
    spaceCands (' ' :: A) = [A, ' ' :: A] := by
  have h1 : (' ' :: A).takeWhile wsChar = [' '] := by
    rw [List.takeWhile_cons, if_pos (by decide)]
    rw [h]
  have h2 : (' ' :: A).dropWhile wsChar = A := by
    rw [List.dropWhile_cons, if_pos (by decide)]
    cases A with
    | nil => rfl
    | cons c t =>
      rw [List.dropWhile_cons, if_neg]
      rw [Bool.not_eq_true]
      exact head_false_of_takeWhile_nil h c t rfl
  simp only [spaceCands, h1, h2]
  rfl

/-! KillTail instances. -/

lemma killTail_nil {B : Str} (hB : B ≠ []) : KillTail B [] := by
  refine ⟨rfl, rfl, ?_⟩
  intro r2 hr2
  have : r2 = [] := by
    simpa [spaceCands, splitsDesc] using hr2
  subst this
  cases B with
  | nil => exact absurd rfl hB
  | cons b B2 => rfl

lemma killTail_space {B A : Str} (hB : B ≠ []) (hBp : ∀ c ∈ B, plainChar c = true)
    (hA : ∀ c ∈ A, plainChar c = true) (hnBA : ¬ B <+: A) : KillTail B (' ' :: A) := by
  have hAws : A.takeWhile wsChar = [] :=
    takeWhile_nil_of_head (fun c t hct => by
      subst hct
      exact (plain_spec (hA c (by simp))).2.1)
  refine ⟨?_, fracCands_cons_ne (by decide), ?_⟩
  · exact takeWhile_nil_of_head (fun c t hct => by
      injection hct with h1 _
      subst h1
      rfl)
  · rw [spaceCands_space hAws]
    intro r2 hr2
    rcases List.mem_cons.1 hr2 with rfl | hr3
    · exact matchToks_none_of_not_pre hnBA
    · rw [List.mem_singleton] at hr3
      subst hr3
      cases B with
      | nil => exact absurd rfl hB
      | cons b B2 =>
        exact matchToks_none_of_not_pre
          (not_prefix_head (plain_ne_space (hBp b (by simp))))

/-! Failure and success of the two matchers at a fixed position. -/

lemma tryAF_no_digit {toks : List ATok} {s : Str} (h : s.takeWhile Char.isDigit = []) :
    tryAmountFirstAt toks s = none := by
  unfold tryAmountFirstAt
  rw [numCands_no_digit h]
  rfl

lemma inner_none {toks : List ATok} {cap : Str} {s : Str}
    (h : ∀ r2 ∈ spaceCands s, matchToks toks r2 = none) :
    firstSome (fun r2 => (matchToks toks r2).map (fun _ => cap)) (spaceCands s) = none :=
  firstSome_none (fun r2 hr2 => by rw [h r2 hr2]; rfl)

lemma inner_kill_head {B : Str} {cap : Str} {c : Char} {t2 : Str}
    (hB : B ≠ []) (hBp : ∀ c2 ∈ B, plainChar c2 = true)
    (hcw : wsChar c = false) (hcb : ∀ b B2, B = b :: B2 → ¬ b = c) :
    firstSome (fun r2 => (matchToks (litToks B) r2).map (fun _ => cap))
      (spaceCands (c :: t2)) = none := by
  have hsp : spaceCands (c :: t2) = [c :: t2] :=
    spaceCands_no_ws (takeWhile_nil_of_head (fun c2 t3 hct => by
      injection hct with h1 _
      subst h1
      exact hcw))
  rw [hsp]
  apply firstSome_none
  intro a ha
  rw [List.mem_singleton] at ha
  subst ha
  cases B with
  | nil => exact absurd rfl hB
  | cons b B2 =>
    rw [matchToks_none_of_not_pre (not_prefix_head (hcb b B2 rfl))]
    rfl

lemma inner_kill_digit {B : Str} {cap : Str} {c : Char} {t2 : Str}
    (hB : B ≠ []) (hBp : ∀ c2 ∈ B, plainChar c2 = true) (hc : Char.isDigit c = true) :
    firstSome (fun r2 => (matchToks (litToks B) r2).map (fun _ => cap))
      (spaceCands (c :: t2)) = none :=
  inner_kill_head hB hBp (digit_not_ws hc)
    (fun b B2 hb => plain_ne_digit (hBp b (by simp [hb])) hc)

lemma inner_kill_dot {B : Str} {cap : Str} {t2 : Str}
    (hB : B ≠ []) (hBp : ∀ c2 ∈ B, plainChar c2 = true) :
    firstSome (fun r2 => (matchToks (litToks B) r2).map (fun _ => cap))
      (spaceCands ('.' :: t2)) = none :=
  inner_kill_head hB hBp (by decide)
    (fun b B2 hb => plain_ne_dot (hBp b (by simp [hb])))

lemma tryAF_kill {B d T : Str}
    (hB : B ≠ []) (hBp : ∀ c ∈ B, plainChar c = true)
    (hd : ∀ c ∈ d, Char.isDigit c = true)
    (hkt : KillTail B T) :
    tryAmountFirstAt (litToks B) (d ++ T) = none := by
  obtain ⟨hT1, hT2, hT3⟩ := hkt
  have hThead : ∀ c t, T = c :: t → Char.isDigit c = false :=
    head_false_of_takeWhile_nil hT1
  unfold tryAmountFirstAt
  apply firstSome_none
  intro q hq
  obtain ⟨d1, d2, hdd, hd1ne, hqq⟩ := numCands_mem hd hThead hq
  have hd2 : ∀ c ∈ d2, Char.isDigit c = true := fun c hc =>
    hd c (by rw [← hdd]; exact List.mem_append_right _ hc)
  rcases hqq with rfl | ⟨fc, hfc, rfl⟩
  · cases d2 with
    | nil =>
      simp only [List.nil_append]
      exact inner_none hT3
    | cons c t2 =>
      simp only [List.cons_append]
      exact inner_kill_digit hB hBp (hd2 c (by simp))
  · cases d2 with
    | cons c t2 =>
      rw [List.cons_append, fracCands_cons_ne (digit_ne_dot (hd2 c (by simp)))] at hfc
      cases hfc
    | nil =>
      rw [List.nil_append, hT2] at hfc
      cases hfc

lemma tryAF_kill_frac {B d f T : Str}
    (hB : B ≠ []) (hBp : ∀ c ∈ B, plainChar c = true)
    (hd : ∀ c ∈ d, Char.isDigit c = true)
    (hf : ∀ c ∈ f, Char.isDigit c = true)
    (hkt : KillTail B T) :
    tryAmountFirstAt (litToks B) (d ++ '.' :: (f ++ T)) = none := by
  obtain ⟨hT1, hT2, hT3⟩ := hkt
  have hThead : ∀ c t, T = c :: t → Char.isDigit c = false :=
    head_false_of_takeWhile_nil hT1
  have hrhead : ∀ c t, ('.' :: (f ++ T)) = c :: t → Char.isDigit c = false := by
    intro c t hct
    injection hct with h1 _
    subst h1
    decide
  unfold tryAmountFirstAt
  apply firstSome_none
  intro q hq
  obtain ⟨d1, d2, hdd, hd1ne, hqq⟩ := numCands_mem hd hrhead hq
  have hd2 : ∀ c ∈ d2, Char.isDigit c = true := fun c hc =>
    hd c (by rw [← hdd]; exact List.mem_append_right _ hc)
  rcases hqq with rfl | ⟨fc, hfc, rfl⟩
  · cases d2 with
    | nil =>
      simp only [List.nil_append]
      exact inner_kill_dot hB hBp
    | cons c t2 =>
      simp only [List.cons_append]
      exact inner_kill_digit hB hBp (hd2 c (by simp))
  · cases d2 with
    | cons c t2 =>
      rw [List.cons_append, fracCands_cons_ne (digit_ne_dot (hd2 c (by simp)))] at hfc
      cases hfc
    | nil =>
      rw [List.nil_append] at hfc
      obtain ⟨f1, f2, hff, hf1ne, rfl⟩ := fracCands_mem hf hThead hfc
      cases f2 with
      | nil =>
        simp only [List.nil_append]
        exact inner_none hT3
      | cons c t2 =>
        have hcf : Char.isDigit c = true := hf c (by
          rw [← hff]
          exact List.mem_append_right _ (by simp))
        simp only [List.cons_append]
        exact inner_kill_digit hB hBp hcf

lemma tryAF_success_core {B Arest A cap : Str}
    (hAws : A.takeWhile wsChar = []) (hBA : A = B ++ Arest) :
    firstSome (fun r2 => (matchToks (litToks B) r2).map (fun _ => cap))
      (spaceCands (' ' :: A)) = some cap := by
  rw [spaceCands_space hAws]
  apply firstSome_cons_some
  rw [hBA, matchToks_app]
  rfl

lemma tryAF_success_nofrac {B A Arest d : Str}
    (hdne : d ≠ []) (hdd : ∀ c ∈ d, Char.isDigit c = true)
    (hAws : A.takeWhile wsChar = []) (hBA : A = B ++ Arest) :
    tryAmountFirstAt (litToks B) (d ++ ' ' :: A) = some d := by
  have hr : ∀ c t, (' ' :: A) = c :: t → Char.isDigit c = false := by
    intro c t hct
    injection hct with h1 _
    subst h1
    decide
  obtain ⟨tail, hnc⟩ := numCands_head hdne hdd hr
  unfold tryAmountFirstAt
  rw [hnc, fracCands_cons_ne (show ¬ ' ' = '.' by decide)]
  simp only [List.map_nil, List.nil_append, List.cons_append]
  apply firstSome_cons_some
  exact tryAF_success_core hAws hBA

lemma tryAF_success_frac {B A Arest d f : Str}
    (hdne : d ≠ []) (hdd : ∀ c ∈ d, Char.isDigit c = true)
    (hfne : f ≠ []) (hfd : ∀ c ∈ f, Char.isDigit c = true)
    (hAws : A.takeWhile wsChar = []) (hBA : A = B ++ Arest) :
    tryAmountFirstAt (litToks B) (d ++ '.' :: (f ++ ' ' :: A)) = some (d ++ '.' :: f) := by
  have hr : ∀ c t, ('.' :: (f ++ ' ' :: A)) = c :: t → Char.isDigit c = false := by
    intro c t hct
    injection hct with h1 _
    subst h1
    decide
  have hsp : ∀ c t, (' ' :: A) = c :: t → Char.isDigit c = false := by
    intro c t hct
    injection hct with h1 _
    subst h1
    decide
  obtain ⟨tail, hnc⟩ := numCands_head hdne hdd hr
  obtain ⟨ftail, hfcs⟩ := fracCands_head hfne hfd hsp
  unfold tryAmountFirstAt
  rw [hnc, hfcs]
  simp only [List.map_cons, List.cons_append]
  apply firstSome_cons_some
  exact tryAF_success_core hAws hBA

lemma tryALF_eval {toks : List ATok} {s r1 : Str} (hm : matchToks toks s = some r1) :
    tryAliasFirstAt toks s =
      firstSome (fun r2 => match numCands r2 with | [] => none | nc :: _ => some nc.1)
        (spaceCands r1) := by
  unfold tryAliasFirstAt
  rw [hm]
  rfl

lemma tryALF_none_of_nomatch {toks : List ATok} {s : Str} (h : matchToks toks s = none) :
    tryAliasFirstAt toks s = none := by
  unfold tryAliasFirstAt
  rw [h]
  rfl

lemma tryALF_none_plain_rest {toks : List ATok} {s r1 : Str}
    (hm : matchToks toks s = some r1)
    (hws : r1.takeWhile wsChar = []) (hdg : r1.takeWhile Char.isDigit = []) :
    tryAliasFirstAt toks s = none := by
  rw [tryALF_eval hm, spaceCands_no_ws hws]
  apply firstSome_none
  intro a ha
  rw [List.mem_singleton] at ha
  subst ha
  rw [numCands_no_digit hdg]

lemma numCands_numeral_head {v : Str} (hv : NumeralStr v) :
    ∃ tail, numCands v = (v, []) :: tail := by
  rcases hv with ⟨hne, hdig⟩ | ⟨d, f, rfl, hd0, hf0, hdd, hfd⟩
  · obtain ⟨tail, h⟩ := numCands_head (r := []) hne hdig (by intro c t h2; cases h2)
    rw [List.append_nil, fracCands_nil] at h
    exact ⟨tail, by simpa using h⟩
  · have hr : ∀ c t, ('.' :: f) = c :: t → Char.isDigit c = false := by
      intro c t h2
      injection h2 with h1 _
      subst h1
      decide
    obtain ⟨tail, h⟩ := numCands_head hd0 hdd hr
    obtain ⟨ftail, hfcs⟩ := @fracCands_head f [] hf0 hfd (by intro c t h2; cases h2)
    rw [List.append_nil] at hfcs
    rw [hfcs] at h
    refine ⟨(ftail.map (fun fc => (d ++ fc.1, fc.2)) ++ [(d, '.' :: f)]) ++ tail, ?_⟩
    rw [h]
    simp

lemma numeral_ws {v : Str} (hv : NumeralStr v) : v.takeWhile wsChar = [] := by
  apply takeWhile_nil_of_head
  intro c t hct
  rcases numeral_chars hv c (by simp [hct]) with h1 | h1
  · exact digit_not_ws h1
  · subst h1
    decide

lemma tryALF_success {A v : Str} (hv : NumeralStr v) :
    tryAliasFirstAt (litToks A) (A ++ ' ' :: v) = some v := by
  rw [tryALF_eval (matchToks_app A (' ' :: v))]
  rw [spaceCands_space (numeral_ws hv)]
  apply firstSome_cons_some
  obtain ⟨tail, h⟩ := numCands_numeral_head hv
  rw [h]

/-! findPat assembly. -/

lemma findPat_head_some {p : Pat} {s r : Str} (h : tryPatAt p s = some r) :
    findPat p s = some r := by
  cases s with
  | nil => rw [findPat]; exact h
  | cons c t => rw [findPat, h]

lemma findPat_none {p : Pat} {s : Str}
    (h : ∀ s2, s2 <:+ s → tryPatAt p s2 = none) : findPat p s = none := by
  induction s with
  | nil => rw [findPat]; exact h [] (List.suffix_refl _)
  | cons c t ih =>
    rw [findPat, h (c :: t) (List.suffix_refl _)]
    exact ih (fun s2 hs2 => h s2 (hs2.trans (List.suffix_cons c t)))

lemma findPat_none_or {p : Pat} {s v : Str}
    (h : ∀ s2, s2 <:+ s → tryPatAt p s2 = none ∨ tryPatAt p s2 = some v) :
    findPat p s = none ∨ findPat p s = some v := by
  induction s with
  | nil => rw [findPat]; exact h [] (List.suffix_refl _)
  | cons c t ih =>
    rcases h (c :: t) (List.suffix_refl _) with h1 | h1
    · rw [findPat, h1]
      exact ih (fun s2 hs2 => h s2 (hs2.trans (List.suffix_cons c t)))
    · rw [findPat, h1]
      exact Or.inr rfl

/-! Where a plain token can sit inside the two message shapes. -/

lemma append_eq_append_plain {v B r1 : Str} :
    ∀ {A2 : Str}, (∀ c ∈ B, plainChar c = true) → A2 ++ ' ' :: v = B ++ r1 →
      ∃ A2t, A2 = B ++ A2t ∧ r1 = A2t ++ ' ' :: v := by
  induction B generalizing r1 with
  | nil =>
    intro A2 _ h
    exact ⟨A2, rfl, by simpa using h.symm⟩
  | cons b B2 ih =>
    intro A2 hB h
    cases A2 with
    | nil =>
      injection h with h1 _
      exact absurd h1.symm (plain_ne_space (hB b (by simp)))
    | cons a A2t2 =>
      injection h with h1 h2
      subst h1
      obtain ⟨A2t, hA2, hr1⟩ := ih (fun c hc => hB c (by simp [hc])) h2
      exact ⟨A2t, by simp [hA2], hr1⟩

lemma plain_takeWhile_ws {s : Str} (h : ∀ c ∈ s, plainChar c = true) :
    s.takeWhile wsChar = [] :=
  takeWhile_nil_of_head (fun c t hct => by
    subst hct
    exact (plain_spec (h c (by simp))).2.1)

lemma plain_takeWhile_digit {s : Str} (h : ∀ c ∈ s, plainChar c = true) :
    s.takeWhile Char.isDigit = [] :=
  takeWhile_nil_of_head (fun c t hct => by
    subst hct
    exact (plain_spec (h c (by simp))).1)

/-! The amount-first pattern on the amount-first message shape. -/

lemma tryAF_suffix_w_none {B v A : Str}
    (hB : B ≠ []) (hBp : ∀ c ∈ B, plainChar c = true)
    (hAp : ∀ c ∈ A, plainChar c = true)
    (hv : NumeralStr v) (hnBA : ¬ B <+: A) :
    ∀ s2, s2 <:+ (v ++ ' ' :: A) → tryAmountFirstAt (litToks B) s2 = none := by
  intro s2 hs
  have hkt : KillTail B (' ' :: A) := killTail_space hB hBp hAp hnBA
  rcases suffix_app_cases hs with ⟨v2, hv2, rfl⟩ | hsA
  · rcases hv with ⟨hne, hdig⟩ | ⟨d, f, hvdf, hd0, hf0, hdd, hfd⟩
    · exact tryAF_kill hB hBp (fun c hc => hdig c (hv2.subset hc)) hkt
    · subst hvdf
      rcases suffix_app_cases hv2 with ⟨d2, hd2s, rfl⟩ | hvf
      · have := tryAF_kill_frac (d := d2) (f := f) (T := ' ' :: A) hB hBp
          (fun c hc => hdd c (hd2s.subset hc)) hfd hkt
        simpa [List.append_assoc] using this
      · rcases List.suffix_cons_iff.1 hvf with rfl | hvf2
        · apply tryAF_no_digit
          apply takeWhile_nil_of_head
          intro c t hct
          injection hct with h1 _
          subst h1
          decide
        · exact tryAF_kill hB hBp (fun c hc => hfd c (hvf2.subset hc)) hkt
  · rcases List.suffix_cons_iff.1 hsA with rfl | hsA2
    · apply tryAF_no_digit
      apply takeWhile_nil_of_head
      intro c t hct
      injection hct with h1 _
      subst h1
      decide
    · apply tryAF_no_digit
      exact plain_takeWhile_digit (fun c hc => hAp c (hsA2.subset hc))

/-! The alias-first pattern on the amount-first message shape. -/

lemma tryALF_suffix_w_none {B v A : Str}
    (hB : B ≠ []) (hBp : ∀ c ∈ B, plainChar c = true)
    (hAp : ∀ c ∈ A, plainChar c = true) (hv : NumeralStr v) :
    ∀ s2, s2 <:+ (v ++ ' ' :: A) → tryAliasFirstAt (litToks B) s2 = none := by
  intro s2 hs
  obtain ⟨b, B2, rfl⟩ : ∃ b B2, B = b :: B2 := by
    cases B with
    | nil => exact absurd rfl hB
    | cons b B2 => exact ⟨b, B2, rfl⟩
  rcases suffix_app_cases hs with ⟨v2, hv2, rfl⟩ | hsA
  · cases v2 with
    | nil =>
      simp only [List.nil_append]
      exact tryALF_none_of_nomatch
        (matchToks_none_of_not_pre (not_prefix_head (plain_ne_space (hBp b (by simp)))))
    | cons c v2t =>
      rcases numeral_chars hv c (hv2.subset (by simp)) with h1 | h1
      · exact tryALF_none_of_nomatch
          (matchToks_none_of_not_pre (not_prefix_head (plain_ne_digit (hBp b (by simp)) h1)))
      · subst h1
        exact tryALF_none_of_nomatch
          (matchToks_none_of_not_pre (not_prefix_head (plain_ne_dot (hBp b (by simp)))))
  · rcases List.suffix_cons_iff.1 hsA with rfl | hsA2
    · exact tryALF_none_of_nomatch
        (matchToks_none_of_not_pre (not_prefix_head (plain_ne_space (hBp b (by simp)))))
    · cases hm : matchToks (litToks (b :: B2)) s2 with
      | none => exact tryALF_none_of_nomatch hm
      | some r1 =>
        have hs2 : s2 = (b :: B2) ++ r1 := matchToks_eq_append hm
        have hr1s2 : r1 <:+ s2 := by
          rw [hs2]
          exact List.suffix_append _ _
        have hr1A : r1 <:+ A := hr1s2.trans hsA2
        have hr1p : ∀ c ∈ r1, plainChar c = true := fun c hc => hAp c (hr1A.subset hc)
        exact tryALF_none_plain_rest hm (plain_takeWhile_ws hr1p) (plain_takeWhile_digit hr1p)

/-! The amount-first pattern on the alias-first message shape. -/

lemma tryAF_suffix_w2_none {B v A : Str}
    (hB : B ≠ []) (hBp : ∀ c ∈ B, plainChar c = true)
    (hAp : ∀ c ∈ A, plainChar c = true) (hv : NumeralStr v) :
    ∀ s2, s2 <:+ (A ++ ' ' :: v) → tryAmountFirstAt (litToks B) s2 = none := by
  intro s2 hs
  have hkt : KillTail B [] := killTail_nil hB
  rcases suffix_app_cases hs with ⟨A2, hA2s, rfl⟩ | hsv
  · apply tryAF_no_digit
    apply takeWhile_nil_of_head
    intro c t hct
    cases A2 with
    | nil =>
      injection hct with h1 _
      subst h1
      decide
    | cons a A2t =>
      injection hct with h1 _
      subst h1
      exact (plain_spec (hAp a (hA2s.subset (by simp)))).1
  · rcases List.suffix_cons_iff.1 hsv with rfl | hsv2
    · apply tryAF_no_digit
      apply takeWhile_nil_of_head
      intro c t hct
      injection hct with h1 _
      subst h1
      decide
    · rcases hv with ⟨hne, hdig⟩ | ⟨d, f, hvdf, hd0, hf0, hdd, hfd⟩
      · have := tryAF_kill (d := s2) (T := []) hB hBp
          (fun c hc => hdig c (hsv2.subset hc)) hkt
        simpa using this
      · subst hvdf
        rcases suffix_app_cases hsv2 with ⟨d2, hd2s, rfl⟩ | hvf
        · have := tryAF_kill_frac (d := d2) (f := f) (T := []) hB hBp
            (fun c hc => hdd c (hd2s.subset hc)) hfd hkt
          simpa using this
        · rcases List.suffix_cons_iff.1 hvf with rfl | hvf2
          · apply tryAF_no_digit
            apply takeWhile_nil_of_head
            intro c t hct
            injection hct with h1 _
            subst h1
            decide
          · have := tryAF_kill (d := s2) (T := []) hB hBp
              (fun c hc => hfd c (hvf2.subset hc)) hkt
            simpa using this

/-! The alias-first pattern on the alias-first message shape. -/

lemma tryALF_suffix_w2 {B v A : Str}
    (hB : B ≠ []) (hBp : ∀ c ∈ B, plainChar c = true)
    (hAp : ∀ c ∈ A, plainChar c = true) (hv : NumeralStr v) :
    ∀ s2, s2 <:+ (A ++ ' ' :: v) →
      tryAliasFirstAt (litToks B) s2 = none ∨ tryAliasFirstAt (litToks B) s2 = some v := by
  intro s2 hs
  obtain ⟨b, B2, rfl⟩ : ∃ b B2, B = b :: B2 := by
    cases B with
    | nil => exact absurd rfl hB
    | cons b B2 => exact ⟨b, B2, rfl⟩
  rcases suffix_app_cases hs with ⟨A2, hA2s, rfl⟩ | hsv
  · cases hm : matchToks (litToks (b :: B2)) (A2 ++ ' ' :: v) with
    | none => exact Or.inl (tryALF_none_of_nomatch hm)
    | some r1 =>
      obtain ⟨A2t, hA2eq, hr1⟩ := append_eq_append_plain hBp (matchToks_eq_append hm)
      subst hr1
      cases A2t with
      | nil =>
        right
        rw [tryALF_eval hm]
        simp only [List.nil_append]
        rw [spaceCands_space (numeral_ws hv)]
        apply firstSome_cons_some
        obtain ⟨tail, hnum⟩ := numCands_numeral_head hv
        rw [hnum]
      | cons a A2t2 =>
        left
        have haA : a ∈ A := hA2s.subset (by
          rw [hA2eq]
          exact List.mem_append_right _ (by simp))
        have hap : plainChar a = true := hAp a haA
        refine tryALF_none_plain_rest hm ?_ ?_
        · apply takeWhile_nil_of_head
          intro c t hct
          injection hct with h1 _
          subst h1
          exact (plain_spec hap).2.1
        · apply takeWhile_nil_of_head
          intro c t hct
          injection hct with h1 _
          subst h1
          exact (plain_spec hap).1
  · left
    rcases List.suffix_cons_iff.1 hsv with rfl | hsv2
    · exact tryALF_none_of_nomatch
        (matchToks_none_of_not_pre (not_prefix_head (plain_ne_space (hBp b (by simp)))))
    · cases s2 with
      | nil => exact tryALF_none_of_nomatch rfl
      | cons c t =>
        rcases numeral_chars hv c (hsv2.subset (by simp)) with h1 | h1
        · exact tryALF_none_of_nomatch
            (matchToks_none_of_not_pre (not_prefix_head (plain_ne_digit (hBp b (by simp)) h1)))
        · subst h1
          exact tryALF_none_of_nomatch
            (matchToks_none_of_not_pre (not_prefix_head (plain_ne_dot (hBp b (by simp)))))

/-! findPat-level results on the two message shapes. -/

lemma findPat_AF_w {B v A : Str}
    (hB : B ≠ []) (hBp : ∀ c ∈ B, plainChar c = true)
    (hAp : ∀ c ∈ A, plainChar c = true) (hv : NumeralStr v) :
    findPat (Pat.amountFirst (litToks B)) (v ++ ' ' :: A) = none ∨
      findPat (Pat.amountFirst (litToks B)) (v ++ ' ' :: A) = some v := by
  by_cases hBA : B <+: A
  · right
    obtain ⟨Arest, hA⟩ := hBA
    have hAws : A.takeWhile wsChar = [] := plain_takeWhile_ws hAp
    apply findPat_head_some
    show tryAmountFirstAt (litToks B) (v ++ ' ' :: A) = some v
    rcases hv with ⟨hne, hdig⟩ | ⟨d, f, hvdf, hd0, hf0, hdd, hfd⟩
    · exact tryAF_success_nofrac hne hdig hAws hA.symm
    · subst hvdf
      have := tryAF_success_frac hd0 hdd hf0 hfd hAws hA.symm
      simpa [List.append_assoc] using this
  · left
    exact findPat_none (fun s2 hs2 => tryAF_suffix_w_none hB hBp hAp hv hBA s2 hs2)

lemma findPat_ALF_w {B v A : Str}
    (hB : B ≠ []) (hBp : ∀ c ∈ B, plainChar c = true)
    (hAp : ∀ c ∈ A, plainChar c = true) (hv : NumeralStr v) :
    findPat (Pat.aliasFirst (litToks B)) (v ++ ' ' :: A) = none :=
  findPat_none (fun s2 hs2 => tryALF_suffix_w_none hB hBp hAp hv s2 hs2)

lemma findPat_AF_w_self {v A : Str}
    (hAp : ∀ c ∈ A, plainChar c = true) (hv : NumeralStr v) :
    findPat (Pat.amountFirst (litToks A)) (v ++ ' ' :: A) = some v := by
  have hAws : A.takeWhile wsChar = [] := plain_takeWhile_ws hAp
  apply findPat_head_some
  show tryAmountFirstAt (litToks A) (v ++ ' ' :: A) = some v
  rcases hv with ⟨hne, hdig⟩ | ⟨d, f, hvdf, hd0, hf0, hdd, hfd⟩
  · exact tryAF_success_nofrac hne hdig hAws (List.append_nil A).symm
  · subst hvdf
    have := tryAF_success_frac hd0 hdd hf0 hfd hAws (List.append_nil A).symm
    simpa [List.append_assoc] using this

lemma findPat_AF_w2 {B v A : Str}
    (hB : B ≠ []) (hBp : ∀ c ∈ B, plainChar c = true)
    (hAp : ∀ c ∈ A, plainChar c = true) (hv : NumeralStr v) :
    findPat (Pat.amountFirst (litToks B)) (A ++ ' ' :: v) = none :=
  findPat_none (fun s2 hs2 => tryAF_suffix_w2_none hB hBp hAp hv s2 hs2)

lemma findPat_ALF_w2 {B v A : Str}
    (hB : B ≠ []) (hBp : ∀ c ∈ B, plainChar c = true)
    (hAp : ∀ c ∈ A, plainChar c = true) (hv : NumeralStr v) :
    findPat (Pat.aliasFirst (litToks B)) (A ++ ' ' :: v) = none ∨
      findPat (Pat.aliasFirst (litToks B)) (A ++ ' ' :: v) = some v :=
  findPat_none_or (fun s2 hs2 => tryALF_suffix_w2 hB hBp hAp hv s2 hs2)

lemma findPat_ALF_w2_self {v A : Str} (hv : NumeralStr v) :
    findPat (Pat.aliasFirst (litToks A)) (A ++ ' ' :: v) = some v :=
  findPat_head_some (tryALF_success hv)

lemma compileAlias_plain : ∀ {a : Str}, (∀ c ∈ a, plainChar c = true) →
    compileAlias a = some (litToks a)
  | [], _ => rfl
  | c :: t, h => by
    have hs := plain_spec (h c (by simp))
    have hct : compileTok c = some (ATok.lit c) := by
      unfold compileTok
      rw [if_neg hs.2.2.1, if_neg (by simpa using hs.2.2.2.1)]
    have ih := compileAlias_plain (a := t) (fun c2 hc2 => h c2 (by simp [hc2]))
    unfold compileAlias
    rw [List.mapM_cons, hct]
    simp only [compileAlias] at ih
    rw [ih]
    simp [litToks]

lemma lowerStr_plain : ∀ {a : Str}, (∀ c ∈ a, plainChar c = true) → lowerStr a = a
  | [], _ => rfl
  | c :: t, h => by
    have h1 := (plain_spec (h c (by simp))).2.2.2.2
    have ih := lowerStr_plain (a := t) (fun c2 hc2 => h c2 (by simp [hc2]))
    simp [lowerStr] at ih
    simp [lowerStr, h1, ih]

lemma mapM_pairs : ∀ {as : List Str}, (∀ a ∈ as, ∀ c ∈ a, plainChar c = true) →
    List.mapM (fun n => do
      let t ← compileAlias (lowerStr n)
      pure [Pat.amountFirst t, Pat.aliasFirst t]) as =
    some (as.map (fun n => [Pat.amountFirst (litToks n), Pat.aliasFirst (litToks n)]))
  | [], _ => rfl
  | a :: t, h => by
    have ih := @mapM_pairs t (fun a2 ha2 => h a2 (by simp [ha2]))
    rw [List.mapM_cons, ih]
    simp [lowerStr_plain (h a (by simp)), compileAlias_plain (h a (by simp))]

lemma patternsFor_plain {C : Str} {as : List Str}
    (hC : ∀ c ∈ C, plainChar c = true)
    (has : ∀ a ∈ as, ∀ c ∈ a, plainChar c = true) :
    patternsFor C as = some
      ([Pat.amountFirst (litToks C), Pat.aliasFirst (litToks C)] ++
        (as.map (fun n => [Pat.amountFirst (litToks n), Pat.aliasFirst (litToks n)])).flatten) := by
  unfold patternsFor
  rw [lowerStr_plain hC, compileAlias_plain hC, mapM_pairs has]
  rfl

lemma pats_shape_mem {C : Str} {as : List Str} {p : Pat}
    (hp : p ∈ [Pat.amountFirst (litToks C), Pat.aliasFirst (litToks C)] ++
      (as.map (fun n => [Pat.amountFirst (litToks n), Pat.aliasFirst (litToks n)])).flatten) :
    ∃ B, B ∈ C :: as ∧ (p = Pat.amountFirst (litToks B) ∨ p = Pat.aliasFirst (litToks B)) := by
  simp only [List.mem_append, List.mem_cons, List.mem_singleton, List.mem_flatten,
    List.mem_map, List.not_mem_nil] at hp
  rcases hp with (rfl | rfl | hfalse) | ⟨l, ⟨n, hn, rfl⟩, hpl⟩
  · exact ⟨C, by simp, Or.inl rfl⟩
  · exact ⟨C, by simp, Or.inr rfl⟩
  · cases hfalse
  · rcases List.mem_cons.1 hpl with rfl | hpl2
    · exact ⟨n, by simp [hn], Or.inl rfl⟩
    · rw [List.mem_singleton] at hpl2
      subst hpl2
      exact ⟨n, by simp [hn], Or.inr rfl⟩

lemma pats_shape_self {C A : Str} {as : List Str} (hA : A ∈ C :: as) :
    Pat.amountFirst (litToks A) ∈
      ([Pat.amountFirst (litToks C), Pat.aliasFirst (litToks C)] ++
        (as.map (fun n => [Pat.amountFirst (litToks n), Pat.aliasFirst (litToks n)])).flatten) ∧
    Pat.aliasFirst (litToks A) ∈
      ([Pat.amountFirst (litToks C), Pat.aliasFirst (litToks C)] ++
        (as.map (fun n => [Pat.amountFirst (litToks n), Pat.aliasFirst (litToks n)])).flatten) := by
  rcases List.mem_cons.1 hA with rfl | h2
  · constructor
    · exact List.mem_append_left _ (by simp)
    · exact List.mem_append_left _ (by simp)
  · constructor
    · refine List.mem_append_right _ (List.mem_flatten.2 ⟨_, List.mem_map.2 ⟨A, h2, rfl⟩, by simp⟩)
    · refine List.mem_append_right _ (List.mem_flatten.2 ⟨_, List.mem_map.2 ⟨A, h2, rfl⟩, by simp⟩)

lemma tryPatsList_of {pats : List Pat} {w v : Str} {q : ℚ}
    (hparse : parseNumQ v = some q)
    (hall : ∀ p ∈ pats, findPat p w = none ∨ findPat p w = some v)
    (hex : ∃ p ∈ pats, findPat p w = some v) :
    tryPatsList pats w = some q := by
  induction pats with
  | nil =>
    obtain ⟨p, hp, _⟩ := hex
    cases hp
  | cons p0 rest ih =>
    rcases hall p0 (by simp) with h1 | h1
    · simp only [tryPatsList, h1]
      apply ih (fun p hp => hall p (by simp [hp]))
      obtain ⟨p, hp, hsome⟩ := hex
      rcases List.mem_cons.1 hp with rfl | hp2
      · rw [h1] at hsome
        cases hsome
      · exact ⟨p, hp2, hsome⟩
    · simp only [tryPatsList, h1, hparse]

lemma parseNumQ_numeral {v : Str} (hv : NumeralStr v) : ∃ q, parseNumQ v = some q := by
  rcases hv with ⟨hne, hdig⟩ | ⟨d, f, rfl, hd0, hf0, hdd, hfd⟩
  · have ht : v.takeWhile Char.isDigit = v := by
      have := takeWhile_app (d := v) (r := []) hdig (by intro c t h2; cases h2)
      simpa using this
    have hd2 : v.dropWhile Char.isDigit = [] := by
      have := dropWhile_app (d := v) (r := []) hdig (by intro c t h2; cases h2)
      simpa using this
    simp only [parseNumQ, ht, hd2, if_neg hne]
    exact ⟨_, rfl⟩
  · have hr : ∀ c t, ('.' :: f) = c :: t → Char.isDigit c = false := by
      intro c t h2
      injection h2 with h1 _
      subst h1
      decide
    simp only [parseNumQ, takeWhile_app hdd hr, dropWhile_app hdd hr, if_neg hd0]
    split
    · exact ⟨_, rfl⟩
    · rename_i hcond
      exfalso
      apply hcond
      refine ⟨trivial, hf0, List.all_eq_true.2 (fun c hc => hfd c hc)⟩

lemma parseSegGo_single {cur : Str} {pats : List Pat} {w x : Str} {q : ℚ}
    (h : tryPatsList pats w = some q) :
    parseSegGo [(cur, pats)] { msg := w, currency := x, value := 0 } =
      { msg := w, currency := cur, value := q } := by
  simp only [parseSegGo, h]
  split
  · rfl
  · rfl

lemma dropWhile_eq_self_of_head {p : Char → Bool} {s : Str}
    (h : ∀ c t, s = c :: t → p c = false) : s.dropWhile p = s := by
  cases s with
  | nil => rfl
  | cons c t =>
    rw [List.dropWhile_cons, h c t rfl]
    simp

lemma trimSpaces_eq_self {s : Str}
    (h1 : ∀ c t, s = c :: t → ¬ c = ' ')
    (h2 : ∀ c t, s.reverse = c :: t → ¬ c = ' ') : trimSpaces s = s := by
  unfold trimSpaces
  rw [dropWhile_eq_self_of_head (s := s) (fun c t hct => by simp [h1 c t hct])]
  rw [dropWhile_eq_self_of_head (s := s.reverse) (fun c t hct => by simp [h2 c t hct])]
  exact List.reverse_reverse s

lemma numeral_head_digit {v : Str} (hv : NumeralStr v) :
    ∀ c t, v = c :: t → Char.isDigit c = true := by
  intro c t hct
  rcases hv with ⟨hne, hdig⟩ | ⟨d, f, hvdf, hd0, hf0, hdd, hfd⟩
  · exact hdig c (by simp [hct])
  · subst hvdf
    cases d with
    | nil => exact absurd rfl hd0
    | cons d0 dt =>
      rw [List.cons_append] at hct
      injection hct with hh _
      subst hh
      exact hdd d0 (by simp)

lemma numeral_ne_nil {v : Str} (hv : NumeralStr v) : v ≠ [] := by
  rcases hv with ⟨hne, _⟩ | ⟨d, f, hvdf, hd0, _, _, _⟩
  · exact hne
  · subst hvdf
    cases d with
    | nil => exact absurd rfl hd0
    | cons d0 dt => simp

lemma trim_w_eq {v A : Str} (hv : NumeralStr v) (hAne : A ≠ [])
    (hAp : ∀ c ∈ A, plainChar c = true) :
    trimSpaces (v ++ ' ' :: A) = v ++ ' ' :: A := by
  apply trimSpaces_eq_self
  · intro c t hct
    obtain ⟨v0, vt, rfl⟩ : ∃ v0 vt, v = v0 :: vt := by
      cases v with
      | nil => exact absurd rfl (numeral_ne_nil hv)
      | cons v0 vt => exact ⟨v0, vt, rfl⟩
    rw [List.cons_append] at hct
    injection hct with hh _
    subst hh
    intro hsp
    subst hsp
    exact absurd (numeral_head_digit hv ' ' vt rfl) (by decide)
  · intro c t hct
    obtain ⟨ar, art, hrev⟩ : ∃ ar art, A.reverse = ar :: art := by
      cases hA : A.reverse with
      | nil => exact absurd (List.reverse_eq_nil_iff.1 hA) hAne
      | cons ar art => exact ⟨ar, art, rfl⟩
    have hmem : ar ∈ A := by
      have : ar ∈ A.reverse := by rw [hrev]; simp
      simpa using this
    rw [List.reverse_append, List.reverse_cons, List.append_assoc, hrev] at hct
    injection hct with hh _
    subst hh
    exact plain_ne_space (hAp ar hmem)

lemma trim_w2_eq {v A : Str} (hv : NumeralStr v) (hAne : A ≠ [])
    (hAp : ∀ c ∈ A, plainChar c = true) :
    trimSpaces (A ++ ' ' :: v) = A ++ ' ' :: v := by
  apply trimSpaces_eq_self
  · intro c t hct
    obtain ⟨a0, at2, rfl⟩ : ∃ a0 at2, A = a0 :: at2 := by
      cases A with
      | nil => exact absurd rfl hAne
      | cons a0 at2 => exact ⟨a0, at2, rfl⟩
    rw [List.cons_append] at hct
    injection hct with hh _
    subst hh
    exact plain_ne_space (hAp a0 (by simp))
  · intro c t hct
    obtain ⟨vr, vrt, hrev⟩ : ∃ vr vrt, v.reverse = vr :: vrt := by
      cases hV : v.reverse with
      | nil => exact absurd (List.reverse_eq_nil_iff.1 hV) (numeral_ne_nil hv)
      | cons vr vrt => exact ⟨vr, vrt, rfl⟩
    have hmem : vr ∈ v := by
      have : vr ∈ v.reverse := by rw [hrev]; simp
      simpa using this
    rw [List.reverse_append, List.reverse_cons, List.append_assoc, hrev] at hct
    injection hct with hh _
    subst hh
    intro hsp
    subst hsp
    rcases numeral_chars hv ' ' hmem with h3 | h3
    · exact absurd h3 (by decide)
    · cases h3

/-- Claim C1, amended: in a registry configuring currency C with alias
list as, all of plain characters (no regex metacharacters — in
particular no dollar sign, which the compiler reads as an end-of-text
anchor — no digits, no whitespace, case-fixed), parsing the
single-segment messages "v A" and "A v" for every supported alias A
(the code C itself included) and every numeral v yields the currency C
with the parsed value of v. -/
theorem c1_plain_alias_parses (C : Str) (as : List Str) (A v : Str)
    (hC : PlainTok C) (has : ∀ a ∈ as, PlainTok a)
    (hA : A ∈ C :: as) (hv : NumeralStr v) :
    (buildCodes [(C, as)]).isSome = true ∧
    (parseNumQ v).isSome = true ∧
    parseMsgF ((buildCodes [(C, as)]).getD []) [v ++ ' ' :: A] =
      [{ msg := v ++ ' ' :: A, currency := C, value := (parseNumQ v).getD 0 }] ∧
    parseMsgF ((buildCodes [(C, as)]).getD []) [A ++ ' ' :: v] =
      [{ msg := A ++ ' ' :: v, currency := C, value := (parseNumQ v).getD 0 }] := by
  obtain ⟨hCne, hCp⟩ := hC
  have hBprops : ∀ B ∈ C :: as, B ≠ [] ∧ ∀ c ∈ B, plainChar c = true := by
    intro B hB
    rcases List.mem_cons.1 hB with rfl | h2
    · exact ⟨hCne, hCp⟩
    · exact has B h2
  have hAne : A ≠ [] := (hBprops A hA).1
  have hAp : ∀ c ∈ A, plainChar c = true := (hBprops A hA).2
  obtain ⟨q, hq⟩ := parseNumQ_numeral hv
  have hpats := patternsFor_plain hCp (fun a ha => (has a ha).2)
  have hbc : buildCodes [(C, as)] = some
      [(C, [Pat.amountFirst (litToks C), Pat.aliasFirst (litToks C)] ++
        (as.map (fun n => [Pat.amountFirst (litToks n), Pat.aliasFirst (litToks n)])).flatten)] := by
    simp [buildCodes, hpats, lowerStr_plain hCp]
  have hall_w : ∀ p ∈ ([Pat.amountFirst (litToks C), Pat.aliasFirst (litToks C)] ++
      (as.map (fun n => [Pat.amountFirst (litToks n), Pat.aliasFirst (litToks n)])).flatten),
      findPat p (v ++ ' ' :: A) = none ∨ findPat p (v ++ ' ' :: A) = some v := by
    intro p hp
    obtain ⟨B, hB, hshape⟩ := pats_shape_mem hp
    obtain ⟨hBne, hBp⟩ := hBprops B hB
    rcases hshape with rfl | rfl
    · exact findPat_AF_w hBne hBp hAp hv
    · exact Or.inl (findPat_ALF_w hBne hBp hAp hv)
  have hall_w2 : ∀ p ∈ ([Pat.amountFirst (litToks C), Pat.aliasFirst (litToks C)] ++
      (as.map (fun n => [Pat.amountFirst (litToks n), Pat.aliasFirst (litToks n)])).flatten),
      findPat p (A ++ ' ' :: v) = none ∨ findPat p (A ++ ' ' :: v) = some v := by
    intro p hp
    obtain ⟨B, hB, hshape⟩ := pats_shape_mem hp
    obtain ⟨hBne, hBp⟩ := hBprops B hB
    rcases hshape with rfl | rfl
    · exact Or.inl (findPat_AF_w2 hBne hBp hAp hv)
    · exact findPat_ALF_w2 hBne hBp hAp hv
  have htp_w : tryPatsList ([Pat.amountFirst (litToks C), Pat.aliasFirst (litToks C)] ++
      (as.map (fun n => [Pat.amountFirst (litToks n), Pat.aliasFirst (litToks n)])).flatten)
      (v ++ ' ' :: A) = some q :=
    tryPatsList_of hq hall_w
      ⟨Pat.amountFirst (litToks A), (pats_shape_self hA).1, findPat_AF_w_self hAp hv⟩
  have htp_w2 : tryPatsList ([Pat.amountFirst (litToks C), Pat.aliasFirst (litToks C)] ++
      (as.map (fun n => [Pat.amountFirst (litToks n), Pat.aliasFirst (litToks n)])).flatten)
      (A ++ ' ' :: v) = some q :=
    tryPatsList_of hq hall_w2
      ⟨Pat.aliasFirst (litToks A), (pats_shape_self hA).2, findPat_ALF_w2_self hv⟩
  refine ⟨by rw [hbc]; rfl, by rw [hq]; rfl, ?_, ?_⟩
  · rw [hbc]
    simp only [Option.getD_some]
    show [parseSegment _ (v ++ ' ' :: A)] = _
    unfold parseSegment
    rw [trim_w_eq hv hAne hAp, parseSegGo_single htp_w, hq]
    rfl
  · rw [hbc]
    simp only [Option.getD_some]
    show [parseSegment _ (A ++ ' ' :: v)] = _
    unfold parseSegment
    rw [trim_w2_eq hv hAne hAp, parseSegGo_single htp_w2, hq]
    rfl

/-- Witness for the amended C1 at the currency usd with alias dollar and
the numeral 5.5 (both message orders). -/
theorem c1_witness :
    PlainTok ("usd".toList) ∧ PlainTok ("dollar".toList) ∧ NumeralStr ("5.5".toList) ∧
    ((buildCodes [("usd".toList, ["dollar".toList])]).isSome = true ∧
     (parseNumQ ("5.5".toList)).isSome = true ∧
     parseMsgF ((buildCodes [("usd".toList, ["dollar".toList])]).getD [])
         [("5.5".toList) ++ ' ' :: ("dollar".toList)] =
       [{ msg := ("5.5".toList) ++ ' ' :: ("dollar".toList), currency := "usd".toList,
          value := (parseNumQ ("5.5".toList)).getD 0 }] ∧
     parseMsgF ((buildCodes [("usd".toList, ["dollar".toList])]).getD [])
         [("dollar".toList) ++ ' ' :: ("5.5".toList)] =
       [{ msg := ("dollar".toList) ++ ' ' :: ("5.5".toList), currency := "usd".toList,
          value := (parseNumQ ("5.5".toList)).getD 0 }]) :=
  ⟨⟨by decide, by decide⟩, ⟨by decide, by decide⟩,
   Or.inr ⟨['5'], ['5'], rfl, by decide, by decide, by decide, by decide⟩,
   c1_plain_alias_parses ("usd".toList) [("dollar".toList)] ("dollar".toList) ("5.5".toList)
     ⟨by decide, by decide⟩
     (by
       intro a ha
       rw [List.mem_singleton] at ha
       subst ha
       exact ⟨by decide, by decide⟩)
     (by simp)
     (Or.inr ⟨['5'], ['5'], rfl, by decide, by decide, by decide, by decide⟩)⟩

end Exchange
